import Mathlib

/-!
Verification of the `pkg/dag` dependency-graph package (graph.go).

The Go source builds a directed acyclic dependency graph over package
build definitions.  This file shallowly embeds the data model and the
operations:

* `Package` mirrors the polymorphic Go `Package` interface with its three
  variants (origin configuration, external package, dangling placeholder);
* `GGraph` models the third-party `graph.Graph[string, Package]` container
  configured with `Directed`, `Acyclic` and `PreventCycles`: a hash-keyed
  vertex list, and directed edges carrying the single `target-origin`
  attribute the source ever sets (modelled as `Option String`);
* `GraphState` models `dag.Graph` (the container plus the `byName` index);
* the construction engine (`NewGraph`, `addAppropriatePackage`,
  `resolveCycle`, `addVertex`, `addDanglingPackage`), the query layer
  (`Sorted`, `ReverseSorted`) and the transform layer (`Filter`) are
  translated function by function;
* `getKeyMaterial` is embedded against file-system/HTTP oracles.

External collaborators that are not part of this repository (the
dominikbraun/graph container, the apko resolver, the `Packages` store)
are modelled as explicit state or oracle functions, following the
behaviour the source relies on; their definitions say so in their doc
comments.
-/

namespace Dag

/-- Model of a melange `Configuration` as used by graph.go: name, the full
version string (the source's `fullVersion(&c.Package)`), subpackage names,
and the environment contents (repositories, keyring, build-time dependency
names). -/
structure Configuration where
  name : String
  version : String
  subpackages : List String
  repositories : List String
  keyring : List String
  packages : List String
deriving DecidableEq, Repr

/-- The polymorphic `Package` capability set with its three variants:
an origin package backed by a `Configuration`, an `externalPackage`
(name, version, repository URI), and a `danglingPackage` (name only). -/
inductive Package where
  | origin (c : Configuration)
  | external (nm ver uri : String)
  | dangling (nm : String)
deriving DecidableEq, Repr

/-- Modelled from the spec: the synthetic local-repository identifier
("Local" constant defined outside graph.go). -/
def Local : String := "local"

/-- The `Name()` capability of a `Package`. -/
def Package.pname : Package → String
  | .origin c => c.name
  | .external nm _ _ => nm
  | .dangling nm => nm

/-- The `Version()` capability of a `Package`.  Modelled from the spec: a dangling
placeholder has empty/sentinel version. -/
def Package.pversion : Package → String
  | .origin c => c.version
  | .external _ v _ => v
  | .dangling _ => ""

/-- The `Source()` capability of a `Package`.  Modelled from the spec: an origin package's
source is the synthetic local identifier, a dangling package's source is
the empty sentinel. -/
def Package.psource : Package → String
  | .origin _ => Local
  | .external _ _ uri => uri
  | .dangling _ => ""

/-- Model of `packageHash`: `fmt.Sprintf("%s:%s@%s", p.Name(), p.Version(), p.Source())`. -/
def packageHash (p : Package) : String :=
  p.pname ++ ":" ++ p.pversion ++ "@" ++ p.psource

/-- A directed edge of the container.  The source only ever attaches the
single attribute `target-origin`; we model the attribute map as
`targetOrigin : Option String` (`none` = no attributes were attached). -/
structure Edge where
  src : String
  tgt : String
  targetOrigin : Option String
deriving DecidableEq, Repr

/-- Errors of the modelled graph container. -/
inductive GErr where
  | vertexAlreadyExists
  | vertexNotFound
  | edgeAlreadyExists
  | edgeNotFound
  | edgeCreatesCycle
  | topoCycle
  | targetNotReachable
deriving DecidableEq, Repr

/-- Model of `graph.Graph[string, Package]` built by `newGraph()`:
directed, acyclic, with `PreventCycles` (edge insertion refuses edges that
would close a cycle). -/
structure GGraph where
  vertices : List (String × Package)
  edges : List Edge
deriving DecidableEq, Repr

def GGraph.empty : GGraph := ⟨[], []⟩

def hasVertexB (g : GGraph) (h : String) : Bool :=
  g.vertices.any (fun v => v.1 == h)

def vertexG (g : GGraph) (h : String) : Except GErr Package :=
  match g.vertices.find? (fun v => v.1 == h) with
  | some v => .ok v.2
  | none => .error .vertexNotFound

def hasEdgeB (g : GGraph) (u v : String) : Bool :=
  g.edges.any (fun e => e.src == u && e.tgt == v)

def edgeG (g : GGraph) (u v : String) : Except GErr Edge :=
  match g.edges.find? (fun e => e.src == u && e.tgt == v) with
  | some e => .ok e
  | none => .error .edgeNotFound

/-- Operation `AddVertex` of the container: fails with vertex-already-exists when the
hash is already present. -/
def addVertexG (g : GGraph) (h : String) (p : Package) : Except GErr GGraph :=
  if hasVertexB g h then .error .vertexAlreadyExists
  else .ok { g with vertices := (h, p) :: g.vertices }

/-- Bounded reachability: `reachF es n a b` holds iff there is an edge walk
of length between 1 and `n` from `a` to `b`. -/
def reachF (es : List Edge) : Nat → String → String → Bool
  | 0, _, _ => false
  | n + 1, a, b =>
      es.any (fun e => e.src == a && (e.tgt == b || reachF es n e.tgt b))

/-- Decidable reachability by a nonempty walk (fuel `es.length` suffices,
as proved below). -/
def reachB (es : List Edge) (a b : String) : Bool :=
  reachF es es.length a b

/-- Model of `graph.CreatesCycle(g, src, tgt)`: adding `src → tgt` closes a cycle
iff `src = tgt` or `src` is reachable from `tgt`. -/
def createsCycleB (g : GGraph) (src tgt : String) : Bool :=
  src == tgt || reachB g.edges tgt src

/-- Operation `AddEdge` of the container (with `PreventCycles`): both endpoints must
exist, the edge must be new, and the edge must not close a cycle. -/
def addEdgeG (g : GGraph) (src tgt : String) (attr : Option String) : Except GErr GGraph :=
  if !hasVertexB g src then .error .vertexNotFound
  else if !hasVertexB g tgt then .error .vertexNotFound
  else if hasEdgeB g src tgt then .error .edgeAlreadyExists
  else if createsCycleB g src tgt then .error .edgeCreatesCycle
  else .ok { g with edges := ⟨src, tgt, attr⟩ :: g.edges }

/-- Operation `RemoveEdge` of the container. -/
def removeEdgeG (g : GGraph) (u v : String) : Except GErr GGraph :=
  if hasEdgeB g u v then
    .ok { g with edges := g.edges.filter (fun e => !(e.src == u && e.tgt == v)) }
  else .error .edgeNotFound

/-! ### Walks and reachability -/

/-- Walks: `IsWalk es w a b` holds when `w` is a (possibly empty) chain of edges drawn from
`es` leading from vertex `a` to vertex `b`. -/
inductive IsWalk (es : List Edge) : List Edge → String → String → Prop where
  | nil (a : String) : IsWalk es [] a a
  | cons (e : Edge) (he : e ∈ es) {w : List Edge} {b : String}
      (hw : IsWalk es w e.tgt b) : IsWalk es (e :: w) e.src b

/-- A vertex `b` is reachable from `a` when a nonempty walk connects them. -/
def Reaches (es : List Edge) (a b : String) : Prop :=
  ∃ w, w ≠ [] ∧ IsWalk es w a b

/-- Reachability or equality (reflexive closure). -/
def RchEq (es : List Edge) (a b : String) : Prop :=
  a = b ∨ Reaches es a b

/-- The acyclicity invariant: no vertex is reachable from itself. -/
def Acyclic (es : List Edge) : Prop := ∀ v, ¬ Reaches es v v

/-! ### The dag package data model -/

/-- Model of `graphOptions`: `WithAllowUnresolved`, extra repositories, extra keys. -/
structure GraphOpts where
  allowUnresolved : Bool
  repos : List String
  keys : List String
deriving Repr

/-- A resolver candidate: name, version, the index URI of the supplying
repository (`r.Repository().IndexUri()`) and its base URI
(`r.Repository().Uri`). -/
structure Candidate where
  cname : String
  cversion : String
  indexUri : String
  uri : String
deriving DecidableEq, Repr

/-- The scoped package resolver collaborator: `ResolvePackage(dep)` yields
a priority-ordered candidate list or an error. -/
def Resolver := String → Except String (List Candidate)

/-- The package-definition store collaborator (`*Packages`):
`Packages()`, `Config(name, false)`, and the local repository source
identifier `Repository(arch).Source()`. -/
structure Packages where
  pkgList : List Configuration
  config : String → List Configuration
  localSource : String

/-- Model of `dag.Graph`: the container plus the `byName` index, stored as
(name, hash) pairs in insertion order. -/
structure GraphState where
  graph : GGraph
  byName : List (String × String)
deriving DecidableEq, Repr

/-- The `cycle` pair: the source and target of a pending (rejected) edge. -/
structure cycle where
  src : String
  target : String
deriving DecidableEq, Repr

/-- Errors produced by graph.go, one constructor per `fmt.Errorf` site. -/
inductive DagErr where
  | gerr (e : GErr)
  | subVertex (pkg sub subver : String) (e : GErr)
  | subEdge (pkg sub subver : String) (e : GErr)
  | keyReadFail (key msg : String)
  | keyHttpFail (key msg : String)
  | schemeNotSupported (scheme : String)
  | keyMaterialFail (key : String) (inner : DagErr)
  | repoLoad (pkg msg : String)
  | emptyDepName (pkg : String)
  | addDanglingFail (pkg dep : String) (e : GErr)
  | unresolvedDep (pkg dep msg : String)
  | localNotFound (nm ver : String)
  | depVertex (pkg dep : String) (e : GErr)
  | depEdge (pkg dep : String) (e : GErr)
  | unfulfilledDep (pkg dep : String)
  | shortestPathFail (e : GErr)
  | noPathBetween (tgt src : String)
  | lastEdgeFind (u v : String) (e : GErr)
  | noAttributes (u v : String)
  | removeEdgeFail (u v : String) (e : GErr)
  | replacementEdgeFail (u v : String) (e : GErr)
  | culpritVertexFind (u : String) (e : GErr)
  | reAddFail (u dep : String) (inner : DagErr)
  | stillCycle (u dep : String)
deriving DecidableEq, Repr

/-! ### Vertex insertion -/

/-- Model of `Graph.addVertex`: add to the container, then track the hash in the
`byName` index.  On a container error the index is left untouched. -/
def addVertexD (st : GraphState) (p : Package) : Except GErr GraphState :=
  match addVertexG st.graph (packageHash p) p with
  | .error e => .error e
  | .ok g' =>
    .ok { graph := g', byName := st.byName ++ [(p.pname, packageHash p)] }

/-- The pervasive caller pattern
`if err != nil && !errors.Is(err, ErrVertexAlreadyExists)`: an
already-exists outcome keeps the old state and is not an error. -/
def addVertexTol (st : GraphState) (p : Package) : GraphState × Option GErr :=
  match addVertexD st p with
  | .ok st' => (st', none)
  | .error e => if e = .vertexAlreadyExists then (st, none) else (st, some e)

/-- Model of `Graph.addDanglingPackage`: a placeholder vertex named after the
unresolved dependency plus an edge from the parent, tolerating
already-exists on both. -/
def addDanglingPackage (st : GraphState) (nm : String) (parent : Package) :
    GraphState × Option GErr :=
  let pkg := Package.dangling nm
  match addVertexTol st pkg with
  | (st1, some e) => (st1, some e)
  | (st1, none) =>
    match addEdgeG st1.graph (packageHash parent) (packageHash pkg) none with
    | .ok g' => ({ st1 with graph := g' }, none)
    | .error e =>
      if e = .edgeAlreadyExists then (st1, none) else (st1, some e)

/-! ### addAppropriatePackage -/

/-- Outcome of the candidate scan inside `addAppropriatePackage`. -/
inductive ScanOut where
  | committed
  | exhausted (cycleTarget : String)
  | failed (e : DagErr)
deriving DecidableEq, Repr

/-- The per-candidate resolution step: a candidate supplied by the local
repository must match a concrete local configuration by name and full
version (its absence is an internal-consistency error); any other
candidate becomes an `externalPackage`. -/
def resolveCandidate (store : Packages) (r : Candidate) (localRepo : String) :
    Except DagErr Package :=
  if r.indexUri == localRepo then
    match (store.config r.cname).find? (fun cfg => cfg.version == r.cversion) with
    | some cfg => .ok (.origin cfg)
    | none => .error (.localNotFound r.cname r.cversion)
  else .ok (.external r.cname r.cversion r.uri)

/-- The candidate loop of `addAppropriatePackage`.  `cycleTarget` is the
Go local of the same name (`""` = no deferred cycle target yet). -/
def scanCandidates (store : Packages) (st : GraphState) (c : Package)
    (dep localRepo : String) (cycleTarget : String) :
    List Candidate → GraphState × ScanOut
  | [] => (st, .exhausted cycleTarget)
  | r :: rest =>
    -- skip: a dependency resolving to myself at my exact version
    if r.cversion == c.pversion && dep == c.pname then
      scanCandidates store st c dep localRepo cycleTarget rest
    else
      match resolveCandidate store r localRepo with
      | .error e => (st, .failed e)
      | .ok pkg =>
        match addVertexTol st pkg with
        | (st1, some e) => (st1, .failed (.depVertex c.pname dep e))
        | (st1, none) =>
          -- `graph.CreatesCycle` also errors (treated like a cycle by the
          -- source) when either endpoint is missing from the container
          if !hasVertexB st1.graph (packageHash c)
              || !hasVertexB st1.graph (packageHash pkg)
              || createsCycleB st1.graph (packageHash c) (packageHash pkg) then
            scanCandidates store st1 c dep localRepo
              (if cycleTarget == "" then packageHash pkg else cycleTarget) rest
          else
            match addEdgeG st1.graph (packageHash c) (packageHash pkg) (some dep) with
            | .ok g' => ({ st1 with graph := g' }, .committed)
            | .error e =>
              if e = .edgeAlreadyExists then (st1, .committed)
              else (st1, .failed (.depEdge c.pname dep e))

/-- The dangling-placeholder fallback of `addAppropriatePackage`. -/
def danglingOutcome (st : GraphState) (dep : String) (c : Package) :
    GraphState × Except DagErr (Option cycle) :=
  match addDanglingPackage st dep c with
  | (s1, none) => (s1, .ok none)
  | (s1, some e) => (s1, .error (.addDanglingFail c.pname dep e))

/-- Model of `Graph.addAppropriatePackage`: resolve `dep`, scan candidates in
priority order, and either commit one edge, report a pending cycle, fall
back to a dangling placeholder, or fail. -/
def addAppropriatePackage (store : Packages) (opts : GraphOpts)
    (st : GraphState) (resolver : Resolver) (c : Package)
    (dep localRepo : String) : GraphState × Except DagErr (Option cycle) :=
  match resolver dep with
  | .error msg =>
    if opts.allowUnresolved then danglingOutcome st dep c
    else (st, .error (.unresolvedDep c.pname dep msg))
  | .ok [] =>
    if opts.allowUnresolved then danglingOutcome st dep c
    else (st, .error (.unresolvedDep c.pname dep ""))
  | .ok (r :: rest) =>
    match scanCandidates store st c dep localRepo "" (r :: rest) with
    | (st1, .committed) => (st1, .ok none)
    | (st1, .failed e) => (st1, .error e)
    | (st1, .exhausted ct) =>
      if ct ≠ "" then (st1, .ok (some ⟨packageHash c, ct⟩))
      else if !opts.allowUnresolved then (st1, .error (.unfulfilledDep c.pname dep))
      else danglingOutcome st1 dep c

/-! ### Shortest path (collaborator `graph.ShortestPath`) -/

def spExtend (es : List Edge) (p : List String) : List (List String) :=
  match p with
  | [] => []
  | last :: _ => (es.filter (fun e => e.src == last)).map (fun e => e.tgt :: p)

def spSearch (es : List Edge) (tgt : String) :
    Nat → List (List String) → Option (List String)
  | 0, _ => none
  | n + 1, frontier =>
    match frontier.find? (fun p => p.head? == some tgt) with
    | some p => some p.reverse
    | none => spSearch es tgt n ((frontier.map (spExtend es)).flatten)

/-- Modelled from the spec: `graph.ShortestPath` returns a shortest
vertex path (endpoints included, breadth-first level order) or an error
when the target is unreachable. -/
def shortestPathG (g : GGraph) (src tgt : String) : Except GErr (List String) :=
  match spSearch g.edges tgt (g.vertices.length + 1) [[src]] with
  | some p => .ok p
  | none => .error .targetNotReachable

/-! ### resolveCycle -/

/-- Model of `Graph.resolveCycle`: one rotation — remove the final hop of the
shortest path from `c.target` to `c.src`, commit the wanted edge
`c.src → c.target`, and re-resolve the culprit's displaced dependency.
The Go receiver is mutated in place, so the (possibly partially rotated)
state is returned alongside an optional error.  The source reads the
`target-origin` attribute after checking the attribute map is non-nil; in
this model the map holds exactly the `target-origin` key whenever it was
attached, so the check is `targetOrigin = none`. -/
def resolveCycle (store : Packages) (opts : GraphOpts) (st : GraphState)
    (c : cycle) (dep : String) (resolver : Resolver) (localRepoSource : String) :
    GraphState × Option DagErr :=
  match shortestPathG st.graph c.target c.src with
  | .error e => (st, some (.shortestPathFail e))
  | .ok sp =>
    if sp.length < 2 then (st, some (.noPathBetween c.target c.src))
    else
      let removeSrc := sp.getD (sp.length - 2) ""
      let removeTarget := sp.getD (sp.length - 1) ""
      match edgeG st.graph removeSrc removeTarget with
      | .error e => (st, some (.lastEdgeFind removeSrc removeTarget e))
      | .ok edge =>
        match edge.targetOrigin with
        | none => (st, some (.noAttributes removeSrc removeTarget))
        | some origDep =>
          match removeEdgeG st.graph removeSrc removeTarget with
          | .error e => (st, some (.removeEdgeFail removeSrc removeTarget e))
          | .ok g1 =>
            let st1 : GraphState := { st with graph := g1 }
            match addEdgeG st1.graph c.src c.target (some dep) with
            | .error e => (st1, some (.replacementEdgeFail c.src c.target e))
            | .ok g2 =>
              let st2 : GraphState := { st1 with graph := g2 }
              match vertexG st2.graph removeSrc with
              | .error e => (st2, some (.culpritVertexFind removeSrc e))
              | .ok config =>
                match addAppropriatePackage store opts st2 resolver config
                    origDep localRepoSource with
                | (st3, .error e) => (st3, some (.reAddFail removeSrc origDep e))
                | (st3, .ok (some _)) => (st3, some (.stillCycle removeSrc dep))
                | (st3, .ok none) => (st3, none)

/-! ### Key material -/

/-- File-system read errors (`os.ReadFile`): distinguishes `fs.ErrNotExist`. -/
inductive FsErr where
  | notExist
  | other (msg : String)
deriving DecidableEq, Repr

/-- I/O collaborators used by `getKeyMaterial` and repository loading. -/
structure SysEnv where
  readFile : String → Except FsErr (List Nat)
  httpGet : String → Except String (List Nat)
  loadRepos : List String → Except String (List String)
  resolverFor : Configuration → Resolver

/-- The characters before a `://` separator, when present. -/
def schemeChars : List Char → Option (List Char)
  | [] => none
  | c :: rest =>
    if c = ':' then
      match rest with
      | '/' :: '/' :: _ => some []
      | _ => none
    else
      match schemeChars rest with
      | some s => some (c :: s)
      | none => none

/-- Modelled from the spec: the scheme assigned by the `uri`/`url`
collaborators — an explicit `scheme://` prefix (`https://` included)
yields that scheme, and a bare local path is treated as a `file`
identifier. -/
def schemeOf (key : String) : String :=
  match schemeChars key.toList with
  | some s => String.mk s
  | none => "file"

/-- Model of `getKeyMaterial`: fetch key bytes from a local file or an `https` URL;
a missing local file yields no bytes and no error; any other scheme is
unsupported. -/
def getKeyMaterial (env : SysEnv) (key : String) :
    Except DagErr (Option (List Nat)) :=
  let scheme := schemeOf key
  if scheme = "file" then
    match env.readFile key with
    | .ok b => .ok (some b)
    | .error .notExist => .ok none
    | .error (.other msg) => .error (.keyReadFail key msg)
  else if scheme = "https" then
    match env.httpGet key with
    | .ok b => .ok (some b)
    | .error msg => .error (.keyHttpFail key msg)
  else .error (.schemeNotSupported scheme)

/-! ### NewGraph -/

/-- Construction context: the I/O environment, the package store and the
options. -/
structure BuildCtx where
  env : SysEnv
  store : Packages
  opts : GraphOpts

/-- Loop state of `NewGraph`: the graph under construction, the repository
index cache keys, and the accumulated per-package errors. -/
structure BuildState where
  st : GraphState
  loaded : List String
  errs : List DagErr

/-- One subpackage version: add the vertex and the `subpackage → origin`
edge, accumulating (not raising) errors. -/
def subpkgStep (c : Configuration) (acc : GraphState × List DagErr)
    (sv : Configuration) : GraphState × List DagErr :=
  let (st, errs) := acc
  if sv.version == c.version then (st, errs)
  else
    match addVertexTol st (.origin sv) with
    | (st1, some e) => (st1, errs ++ [.subVertex c.name sv.name sv.version e])
    | (st1, none) =>
      match addEdgeG st1.graph (packageHash (.origin sv))
          (packageHash (.origin c)) none with
      | .ok g' => ({ st1 with graph := g' }, errs)
      | .error e =>
        if e = .edgeAlreadyExists then (st1, errs)
        else (st1, errs ++ [.subEdge c.name sv.name sv.version e])

/-- The subpackage double loop of `NewGraph`. -/
def addSubpackages (store : Packages) (c : Configuration)
    (start : GraphState × List DagErr) : GraphState × List DagErr :=
  c.subpackages.foldl
    (fun acc subName => (store.config subName).foldl (subpkgStep c) acc) start

/-- The key-material loop: any fetch failure aborts the whole run. -/
def fetchKeysLoop (env : SysEnv) : List String → Except DagErr Unit
  | [] => .ok ()
  | k :: rest =>
    match getKeyMaterial env k with
    | .error e => .error (.keyMaterialFail k e)
    | .ok _ => fetchKeysLoop env rest

/-- The build-dependency loop of `NewGraph`: resolve each declared
dependency, repairing pending cycles, accumulating per-dependency errors. -/
def processDeps (ctx : BuildCtx) (resolver : Resolver) (c : Configuration) :
    BuildState → List String → BuildState
  | bs, [] => bs
  | bs, dep :: rest =>
    if dep = "" then
      processDeps ctx resolver c
        { bs with errs := bs.errs ++ [.emptyDepName c.name] } rest
    else
      match addAppropriatePackage ctx.store ctx.opts bs.st resolver (.origin c)
          dep ctx.store.localSource with
      | (st', .error e) =>
        processDeps ctx resolver c { bs with st := st', errs := bs.errs ++ [e] } rest
      | (st', .ok none) =>
        processDeps ctx resolver c { bs with st := st' } rest
      | (st', .ok (some cyc)) =>
        match resolveCycle ctx.store ctx.opts st' cyc dep resolver
            ctx.store.localSource with
        | (st'', none) => processDeps ctx resolver c { bs with st := st'' } rest
        | (st'', some e) =>
          processDeps ctx resolver c { bs with st := st'', errs := bs.errs ++ [e] } rest

/-- The repository-index loading step: repositories already in the cache
are reused, the remaining ones are loaded in bulk (a failure is fatal);
the sources of the newly loaded indexes extend the cache. -/
def loadReposIfNeeded (env : SysEnv) (loaded : List String)
    (repoList : List String) : Except String (List String) :=
  let toLoad := repoList.filter (fun r => !loaded.contains r)
  if toLoad.isEmpty then .ok [] else env.loadRepos toLoad

/-- One iteration of `NewGraph`'s main loop over origin packages.
Per-package problems are appended to `errs`; only key-material and
repository-load failures are returned as (fatal) errors. -/
def processPackage (ctx : BuildCtx) (bs : BuildState) (c : Configuration) :
    Except DagErr BuildState :=
  match addVertexTol bs.st (.origin c) with
  | (_, some e) => .ok { bs with errs := bs.errs ++ [.gerr e] }
  | (st0, none) =>
    match addSubpackages ctx.store c (st0, bs.errs) with
    | (st1, errs1) =>
      match fetchKeysLoop ctx.env (c.keyring ++ ctx.opts.keys) with
      | .error e => .error e
      | .ok _ =>
        match loadReposIfNeeded ctx.env bs.loaded
            (c.repositories ++ ctx.opts.repos) with
        | .error msg => .error (.repoLoad c.name msg)
        | .ok srcs =>
          .ok (processDeps ctx (ctx.env.resolverFor c) c
            { st := st1, loaded := bs.loaded ++ srcs, errs := errs1 } c.packages)

/-- The main construction loop over all origin packages. -/
def runLoop (ctx : BuildCtx) : List Configuration → BuildState → Except DagErr BuildState
  | [], bs => .ok bs
  | c :: rest, bs =>
    match processPackage ctx bs c with
    | .error e => .error e
    | .ok bs' => runLoop ctx rest bs'

/-- The overall result of `NewGraph`: either a fatal error, or the joined
accumulated per-package errors, or the graph. -/
inductive NewGraphErr where
  | fatal (e : DagErr)
  | joined (errs : List DagErr)
deriving DecidableEq, Repr

def initialBuildState : BuildState := ⟨⟨GGraph.empty, []⟩, [], []⟩

/-- Model of `NewGraph`: run the loop; a fatal error aborts, a non-empty error
accumulation yields one joined error and no graph. -/
def NewGraphM (ctx : BuildCtx) : Except NewGraphErr GraphState :=
  match runLoop ctx ctx.store.pkgList initialBuildState with
  | .error e => .error (.fatal e)
  | .ok bs => if bs.errs = [] then .ok bs.st else .error (.joined bs.errs)

/-! ### Query layer -/

def pickZeroIn (es : List Edge) (remaining : List String) : Option String :=
  remaining.find?
    (fun v => !(es.any (fun e => e.tgt == v && remaining.contains e.src)))

def kahnAux (es : List Edge) : Nat → List String → Except GErr (List String)
  | 0, remaining => if remaining.isEmpty then .ok [] else .error .topoCycle
  | n + 1, remaining =>
    if remaining.isEmpty then .ok []
    else
      match pickZeroIn es remaining with
      | none => .error .topoCycle
      | some v =>
        match kahnAux es n (remaining.erase v) with
        | .ok l => .ok (v :: l)
        | .error e => .error e

/-- Modelled from the spec: `graph.TopologicalSort` returns a full
topological order over all vertices (every edge's source precedes its
target) and fails when the graph is not acyclic. -/
def topoSortG (g : GGraph) : Except GErr (List String) :=
  kahnAux g.edges g.vertices.length (g.vertices.map Prod.fst)

/-- Model of `Graph.Sorted`: topological order of vertex hashes, mapped back to
packages. -/
def SortedM (st : GraphState) : Except GErr (List Package) :=
  match topoSortG st.graph with
  | .error e => .error e
  | .ok nodes => nodes.mapM (fun n => vertexG st.graph n)

/-- Model of `Graph.ReverseSorted`: `Sorted` reversed in place. -/
def ReverseSortedM (st : GraphState) : Except GErr (List Package) :=
  match SortedM st with
  | .error e => .error e
  | .ok pkgs => .ok pkgs.reverse

/-! ### Filter -/

def FilterP := Package → Bool

def FilterSources (source : List String) : FilterP :=
  fun p => source.contains p.psource

def FilterNotSources (source : List String) : FilterP :=
  fun p => !(source.contains p.psource)

def FilterLocal : FilterP := FilterSources [Local]

def FilterNotLocal : FilterP := FilterNotSources [Local]

/-- Pass 1 of `Graph.Filter`: keep every vertex passing the filter. -/
def filterVertexPass (st0 : GraphState) (g : GGraph) (f : FilterP) : GraphState :=
  g.vertices.foldl
    (fun acc v => if f v.2 then (addVertexTol acc v.2).1 else acc) st0

/-- One edge of pass 2 of `Graph.Filter`: re-add the edge when both its
endpoints survived pass 1, tolerating already-exists (attributes are not
copied). -/
def filterEdgeStep (acc : GraphState) (e : Edge) : Except GErr GraphState :=
  if hasVertexB acc.graph e.src && hasVertexB acc.graph e.tgt then
    match addEdgeG acc.graph e.src e.tgt none with
    | .ok g' => .ok { acc with graph := g' }
    | .error err => if err = .edgeAlreadyExists then .ok acc else .error err
  else .ok acc

/-- Pass 2 of `Graph.Filter`. -/
def filterEdgePass (g : GGraph) (sub : GraphState) : Except GErr GraphState :=
  g.edges.foldlM filterEdgeStep sub

/-- Model of `Graph.Filter`: two-pass construction of a fresh subgraph. -/
def FilterM (st : GraphState) (f : FilterP) : Except GErr GraphState :=
  filterEdgePass st.graph (filterVertexPass ⟨GGraph.empty, []⟩ st.graph f)

/-! ### Topological sort correctness (claim C4) -/

/-- Well-formedness maintained by the container: vertex hashes are unique
and edges join existing vertices. -/
def GraphWF (g : GGraph) : Prop :=
  (g.vertices.map Prod.fst).Nodup ∧
  ∀ e ∈ g.edges, e.src ∈ g.vertices.map Prod.fst ∧ e.tgt ∈ g.vertices.map Prod.fst

/-- Total vertex lookup used to phrase `Sorted`'s output. -/
def vertexOf (g : GGraph) (h : String) : Package :=
  match vertexG g h with
  | .ok p => p
  | .error _ => Package.dangling ""

/-! ### Concrete scenarios -/

def okOr {ε α : Type} (x : Except ε α) (d : α) : α :=
  match x with
  | .ok v => v
  | .error _ => d

/-- A two-package store: `A` build-depends on `b`, resolved locally to `B`. -/
def cfgA : Configuration := ⟨"A", "1.0", [], [], [], ["b"]⟩

def cfgB : Configuration := ⟨"B", "2.0", [], [], [], []⟩

def store1 : Packages :=
  ⟨[cfgA, cfgB], fun n => if n = "B" then [cfgB] else [], "local-idx"⟩

def env1 : SysEnv :=
  ⟨fun _ => .error .notExist, fun _ => .ok [], fun _ => .ok [],
   fun _ => fun d =>
     if d = "b" then .ok [⟨"B", "2.0", "local-idx", "local-uri"⟩]
     else .error "no candidate"⟩

def ctx1 : BuildCtx := ⟨env1, store1, ⟨false, [], []⟩⟩

/-- Origin `A@1.0` declaring a dependency on its own name. -/
def c2c : Package := .origin ⟨"A", "1.0", [], [], [], ["A"]⟩

/-- A candidate named differently from the origin, at the origin's version. -/
def c2r : Candidate := ⟨"B", "1.0", "ext-idx", "ext-uri"⟩

def c2res : Resolver := fun d => if d = "A" then .ok [c2r] else .ok []

def c2store : Packages := ⟨[], fun _ => [], "local-idx"⟩

def c2opts : GraphOpts := ⟨false, [], []⟩

def c2st : GraphState := (addVertexTol ⟨⟨[], []⟩, []⟩ c2c).1

/-- Origin `A@2.0` depending on its own name, resolved to `A@1.0`. -/
def c2c2 : Package := .origin ⟨"A", "2.0", [], [], [], ["A"]⟩

def c2r2 : Candidate := ⟨"A", "1.0", "ext-idx", "ext-uri"⟩

def c2res2 : Resolver := fun d => if d = "A" then .ok [c2r2] else .ok []

def c2st2 : GraphState := (addVertexTol ⟨⟨[], []⟩, []⟩ c2c2).1

/-- A skippable candidate: version equal to the origin's. -/
def c2r0 : Candidate := ⟨"X", "1.0", "ext-idx", "ext-uri"⟩

/-- A candidate resolving, under a dependency name different from the
origin's name, to the origin `A@1.0` itself in the local repository. -/
def c2r3 : Candidate := ⟨"A", "1.0", "local-idx", "local-uri"⟩

def c2res3 : Resolver := fun d => if d = "prov" then .ok [c2r3] else .ok []

def c2store3 : Packages :=
  ⟨[], fun n => if n = "A" then [⟨"A", "1.0", [], [], [], ["A"]⟩] else [],
   "local-idx"⟩

def pkgA5 : Package := .external "A" "1" "r"

def pkgB5 : Package := .external "B" "1" "r"

/-- Graph with edge `B → A` tagged `target-origin = "x"`, and a pending
cycle for the wanted edge `A → B`. -/
def st5 : GraphState :=
  ⟨⟨[("B:1@r", pkgB5), ("A:1@r", pkgA5)], [⟨"B:1@r", "A:1@r", some "x"⟩]⟩, []⟩

def cyc5 : cycle := ⟨"A:1@r", "B:1@r"⟩

/-- Re-resolution of `x` finds a fresh external candidate `C`. -/
def res5 : Resolver :=
  fun d => if d = "x" then .ok [⟨"C", "1", "ext-idx", "ext"⟩] else .ok []

def store5 : Packages := ⟨[], fun _ => [], "local"⟩

def opts5 : GraphOpts := ⟨false, [], []⟩

def g15 : GGraph := okOr (removeEdgeG st5.graph "B:1@r" "A:1@r") st5.graph

def g25 : GGraph := okOr (addEdgeG g15 "A:1@r" "B:1@r" (some "d")) g15

def st35 : GraphState :=
  (addAppropriatePackage store5 opts5 ⟨g25, st5.byName⟩ res5 pkgB5 "x" "local").1

/-- Like `st5` but the culprit edge carries no attribute. -/
def st6 : GraphState :=
  ⟨⟨[("B:1@r", pkgB5), ("A:1@r", pkgA5)], [⟨"B:1@r", "A:1@r", none⟩]⟩, []⟩

/-- Re-resolution of `x` finds only `A` again, re-creating the cycle. -/
def res10 : Resolver :=
  fun d => if d = "x" then .ok [⟨"A", "1", "ext-idx", "r"⟩] else .ok []

/-- Two packages, each declaring one empty dependency name. -/
def cfg7a : Configuration := ⟨"A", "1", [], [], [], [""]⟩

def cfg7b : Configuration := ⟨"B", "1", [], [], [], [""]⟩

def store7 : Packages := ⟨[cfg7a, cfg7b], fun _ => [], "local-idx"⟩

def ctx7 : BuildCtx := ⟨env1, store7, ⟨false, [], []⟩⟩

def bs7 : BuildState :=
  okOr (runLoop ctx7 ctx7.store.pkgList initialBuildState) initialBuildState

def c8p : Package := .external "K" "1" "r"

def c8st0 : GraphState := ⟨⟨[], []⟩, []⟩

def c8st1 : GraphState := okOr (addVertexD c8st0 c8p) c8st0

def env9 : SysEnv :=
  ⟨fun p => if p = "/k" then .error .notExist else .error (.other "boom"),
   fun _ => .ok [], fun _ => .ok [], fun _ => fun _ => .ok []⟩

def pA3 : Package := .external "A" "1" "r"

def pB3 : Package := .external "B" "1" "s"

def st3w : GraphState :=
  ⟨⟨[("A:1@r", pA3), ("B:1@s", pB3)], [⟨"A:1@r", "B:1@s", some "d"⟩]⟩, []⟩

def f3w : FilterP := FilterSources ["r"]

def sub3w : GraphState := okOr (FilterM st3w f3w) st3w

/-- A two-vertex cyclic edge set (built directly, bypassing the guarded
insertion) to exercise the failure branch of `Sorted`. -/
def w4bad : GraphState :=
  ⟨⟨[("A", .dangling "A"), ("B", .dangling "B")],
    [⟨"A", "B", none⟩, ⟨"B", "A", none⟩]⟩, []⟩

theorem isWalk_nil_eq {es : List Edge} {a b : String}
    (h : IsWalk es [] a b) : a = b := by
  cases h; rfl

theorem isWalk_append {es : List Edge} {w₁ w₂ : List Edge} {a m b : String}
    (h₁ : IsWalk es w₁ a m) (h₂ : IsWalk es w₂ m b) :
    IsWalk es (w₁ ++ w₂) a b := by
  induction h₁ with
  | nil => simpa using h₂
  | cons e he hw ih => exact IsWalk.cons e he (ih h₂)

theorem isWalk_append_split {es : List Edge} {w₁ w₂ : List Edge} {a b : String}
    (h : IsWalk es (w₁ ++ w₂) a b) :
    ∃ m, IsWalk es w₁ a m ∧ IsWalk es w₂ m b := by
  induction w₁ generalizing a with
  | nil => exact ⟨a, IsWalk.nil a, by simpa using h⟩
  | cons e w₁ ih =>
    cases h with
    | cons e he hw =>
      obtain ⟨m, hm₁, hm₂⟩ := ih hw
      exact ⟨m, IsWalk.cons e he hm₁, hm₂⟩

theorem isWalk_edges_mem {es : List Edge} {w : List Edge} {a b : String}
    (h : IsWalk es w a b) : ∀ e ∈ w, e ∈ es := by
  induction h with
  | nil => simp
  | cons e he hw ih =>
    intro x hx
    rcases List.mem_cons.mp hx with h1 | h2
    · exact h1 ▸ he
    · exact ih x h2

theorem isWalk_mono {es es' : List Edge} {w : List Edge} {a b : String}
    (hsub : ∀ e ∈ es', e ∈ es) (h : IsWalk es' w a b) : IsWalk es w a b := by
  induction h with
  | nil => exact IsWalk.nil _
  | cons e he hw ih => exact IsWalk.cons e (hsub e he) ih

theorem reaches_mono {es es' : List Edge} {a b : String}
    (hsub : ∀ e ∈ es', e ∈ es) (h : Reaches es' a b) : Reaches es a b := by
  obtain ⟨w, hne, hw⟩ := h
  exact ⟨w, hne, isWalk_mono hsub hw⟩

theorem acyclic_antitone {es es' : List Edge}
    (hsub : ∀ e ∈ es', e ∈ es) (h : Acyclic es) : Acyclic es' :=
  fun v hv => h v (reaches_mono hsub hv)

theorem reaches_single {es : List Edge} {e : Edge} (he : e ∈ es) :
    Reaches es e.src e.tgt :=
  ⟨[e], by simp, IsWalk.cons e he (IsWalk.nil _)⟩

theorem reaches_trans {es : List Edge} {a b c : String}
    (h₁ : Reaches es a b) (h₂ : Reaches es b c) : Reaches es a c := by
  obtain ⟨w₁, hne₁, hw₁⟩ := h₁
  obtain ⟨w₂, hne₂, hw₂⟩ := h₂
  refine ⟨w₁ ++ w₂, ?_, isWalk_append hw₁ hw₂⟩
  cases w₁ <;> simp_all

theorem reaches_rchEq_trans {es : List Edge} {a b c : String}
    (h₁ : Reaches es a b) (h₂ : RchEq es b c) : Reaches es a c := by
  rcases h₂ with rfl | h₂
  · exact h₁
  · exact reaches_trans h₁ h₂

theorem rchEq_trans {es : List Edge} {a b c : String}
    (h₁ : RchEq es a b) (h₂ : RchEq es b c) : RchEq es a c := by
  rcases h₁ with rfl | h₁
  · exact h₂
  · exact Or.inr (reaches_rchEq_trans h₁ h₂)

theorem reachF_sound {es : List Edge} {n : Nat} {a b : String}
    (h : reachF es n a b = true) : Reaches es a b := by
  induction n generalizing a with
  | zero => simp [reachF] at h
  | succ n ih =>
    simp only [reachF, List.any_eq_true, Bool.and_eq_true, Bool.or_eq_true,
      beq_iff_eq] at h
    obtain ⟨e, he, hsrc, hrest⟩ := h
    subst hsrc
    rcases hrest with htgt | hrec
    · exact htgt ▸ reaches_single he
    · exact reaches_trans (reaches_single he) (ih hrec)

theorem reachF_of_walk {es : List Edge} {w : List Edge} {a b : String} {n : Nat}
    (h : IsWalk es w a b) (hne : w ≠ []) (hlen : w.length ≤ n) :
    reachF es n a b = true := by
  induction h generalizing n with
  | nil => exact absurd rfl hne
  | @cons e he w' b hw ih =>
    match n, hlen with
    | n + 1, hlen =>
      simp only [reachF, List.any_eq_true, Bool.and_eq_true, Bool.or_eq_true,
        beq_iff_eq]
      refine ⟨e, he, rfl, ?_⟩
      cases hw' : w' with
      | nil =>
        subst hw'
        exact Or.inl (isWalk_nil_eq hw)
      | cons x xs =>
        refine Or.inr (ih (by simp [hw']) ?_)
        have := hlen
        simp only [List.length_cons, Nat.add_le_add_iff_right] at this
        exact this

/-- Any pair `[x, y]` that is a sublist admits a three-way split. -/
theorem sublist_pair_split {α : Type} {x y : α} :
    ∀ {l : List α}, List.Sublist [x, y] l →
      ∃ l₁ l₂ l₃, l = l₁ ++ (x :: (l₂ ++ (y :: l₃))) := by
  intro l h
  induction l with
  | nil => cases h
  | cons a l ih =>
    cases h with
    | cons _ h' =>
      obtain ⟨l₁, l₂, l₃, rfl⟩ := ih h'
      exact ⟨a :: l₁, l₂, l₃, by simp⟩
    | cons₂ _ h' =>
      have hy : y ∈ l := h'.subset (by simp)
      obtain ⟨s, t, rfl⟩ := List.append_of_mem hy
      exact ⟨[], s, t, by simp⟩

theorem exists_nodup_walk_aux {es : List Edge} :
    ∀ (n : Nat) {w : List Edge} {a b : String}, w.length ≤ n →
      IsWalk es w a b → w ≠ [] →
      ∃ w', w'.Nodup ∧ w' ≠ [] ∧ IsWalk es w' a b := by
  intro n
  induction n with
  | zero =>
    intro w a b hlen hw hne
    cases w with
    | nil => exact absurd rfl hne
    | cons x xs => simp at hlen
  | succ n ih =>
    intro w a b hlen hw hne
    by_cases hnd : w.Nodup
    · exact ⟨w, hnd, hne, hw⟩
    · obtain ⟨e, hdup⟩ := List.exists_duplicate_iff_not_nodup.mpr hnd
      have hsub : List.Sublist [e, e] w := List.duplicate_iff_sublist.mp hdup
      obtain ⟨l₁, l₂, l₃, rfl⟩ := sublist_pair_split hsub
      obtain ⟨m₁, hw₁, hw₂⟩ := @isWalk_append_split _ l₁ _ _ _ hw
      cases hw₂ with
      | cons _ he hw₂' =>
        obtain ⟨m₂, hw₃, hw₄⟩ := @isWalk_append_split _ l₂ _ _ _ hw₂'
        cases hw₄ with
        | cons _ _ hw₅ =>
          have hshort : IsWalk es (l₁ ++ e :: l₃) a b :=
            isWalk_append hw₁ (IsWalk.cons e he hw₅)
          refine ih ?_ hshort (by simp)
          simp only [List.length_append, List.length_cons] at hlen ⊢
          omega

/-- Any nonempty walk shortens to a nonempty duplicate-free walk. -/
theorem exists_nodup_walk {es : List Edge} {w : List Edge} {a b : String}
    (hw : IsWalk es w a b) (hne : w ≠ []) :
    ∃ w', w'.Nodup ∧ w' ≠ [] ∧ IsWalk es w' a b :=
  exists_nodup_walk_aux w.length (Nat.le_refl _) hw hne

theorem walk_length_le {es : List Edge} {w : List Edge} {a b : String}
    (hw : IsWalk es w a b) (hnd : w.Nodup) : w.length ≤ es.length := by
  have hsub : w.toFinset ⊆ es.toFinset := by
    intro x hx
    simp only [List.mem_toFinset] at hx ⊢
    exact isWalk_edges_mem hw x hx
  calc w.length = w.toFinset.card := (List.toFinset_card_of_nodup hnd).symm
    _ ≤ es.toFinset.card := Finset.card_le_card hsub
    _ ≤ es.length := List.toFinset_card_le es

/-- Correctness of the bounded reachability check. -/
theorem reaches_iff_reachB {es : List Edge} {a b : String} :
    Reaches es a b ↔ reachB es a b = true := by
  constructor
  · rintro ⟨w, hne, hw⟩
    obtain ⟨w', hnd, hne', hw'⟩ := exists_nodup_walk hw hne
    exact reachF_of_walk hw' hne' (walk_length_le hw' hnd)
  · exact reachF_sound

/-- Decomposition of a walk over an extended edge set `e :: es`: either the
walk is empty, or it avoids `e` entirely, or it passes through `e`. -/
theorem isWalk_cons_elim {es : List Edge} {e : Edge} :
    ∀ {w : List Edge} {a b : String}, IsWalk (e :: es) w a b →
      (w = [] ∧ a = b) ∨ Reaches es a b ∨
        (RchEq es a e.src ∧ RchEq es e.tgt b) := by
  intro w a b hw
  induction hw with
  | nil => exact Or.inl ⟨rfl, rfl⟩
  | @cons e' he' w' b' hw' ih =>
    rcases List.mem_cons.mp he' with rfl | he'mem
    · rcases ih with ⟨hw'nil, heq⟩ | hreach | ⟨h1, h2⟩
      · exact Or.inr (Or.inr ⟨Or.inl rfl, Or.inl heq⟩)
      · exact Or.inr (Or.inr ⟨Or.inl rfl, Or.inr hreach⟩)
      · exact Or.inr (Or.inr ⟨Or.inl rfl, h2⟩)
    · rcases ih with ⟨hw'nil, heq⟩ | hreach | ⟨h1, h2⟩
      · exact Or.inr (Or.inl (heq ▸ reaches_single he'mem))
      · exact Or.inr (Or.inl (reaches_trans (reaches_single he'mem) hreach))
      · exact Or.inr (Or.inr
          ⟨Or.inr (reaches_rchEq_trans (reaches_single he'mem) h1), h2⟩)

theorem reaches_cons_elim {es : List Edge} {e : Edge} {a b : String}
    (h : Reaches (e :: es) a b) :
    Reaches es a b ∨ (RchEq es a e.src ∧ RchEq es e.tgt b) := by
  obtain ⟨w, hne, hw⟩ := h
  rcases isWalk_cons_elim hw with ⟨rfl, _⟩ | h | h
  · exact absurd rfl hne
  · exact Or.inl h
  · exact Or.inr h

/-- Adding an edge whose reversal is not already realized by the graph
preserves acyclicity. -/
theorem acyclic_cons {es : List Edge} {e : Edge}
    (hacy : Acyclic es) (hno : ¬ RchEq es e.tgt e.src) : Acyclic (e :: es) := by
  intro v hv
  rcases reaches_cons_elim hv with h | ⟨h1, h2⟩
  · exact hacy v h
  · exact hno (rchEq_trans h2 h1)

/-- Operation `AddEdge` (with the `PreventCycles` probe) preserves acyclicity. -/
theorem addEdgeG_acyclic {g g' : GGraph} {src tgt : String} {attr : Option String}
    (h : addEdgeG g src tgt attr = .ok g') (hacy : Acyclic g.edges) :
    Acyclic g'.edges := by
  unfold addEdgeG at h
  split at h
  · exact absurd h (by simp)
  split at h
  · exact absurd h (by simp)
  split at h
  · exact absurd h (by simp)
  split at h
  · exact absurd h (by simp)
  next hcyc =>
    cases h
    simp only [createsCycleB, Bool.or_eq_true, beq_iff_eq,
      not_or, Bool.not_eq_true] at hcyc
    refine acyclic_cons hacy ?_
    rintro (heq | hr)
    · exact hcyc.1 heq.symm
    · rw [reaches_iff_reachB] at hr
      simp [hr] at hcyc

/-! ### Acyclicity is preserved by every operation (claim C1) -/

theorem acyclic_nil : Acyclic ([] : List Edge) := by
  rintro v ⟨w, hne, hw⟩
  cases hw with
  | nil => exact hne rfl
  | cons e he hw' => simp at he

theorem addVertexG_edges {g g' : GGraph} {h0 : String} {p : Package}
    (h : addVertexG g h0 p = .ok g') : g'.edges = g.edges := by
  unfold addVertexG at h
  split at h
  · exact absurd h (by simp)
  · cases h; rfl

theorem addVertexD_edges {st st' : GraphState} {p : Package}
    (h : addVertexD st p = .ok st') : st'.graph.edges = st.graph.edges := by
  unfold addVertexD at h
  split at h
  next heq => exact absurd h (by simp)
  next g' heq =>
    cases h
    exact addVertexG_edges heq

theorem addVertexTol_edges (st : GraphState) (p : Package) :
    (addVertexTol st p).1.graph.edges = st.graph.edges := by
  unfold addVertexTol
  split
  next st' heq => exact addVertexD_edges heq
  next e heq => split <;> rfl

theorem removeEdgeG_acyclic {g g' : GGraph} {u v : String}
    (h : removeEdgeG g u v = .ok g') (hacy : Acyclic g.edges) :
    Acyclic g'.edges := by
  unfold removeEdgeG at h
  split at h
  · cases h
    exact acyclic_antitone (fun e he => (List.mem_filter.mp he).1) hacy
  · exact absurd h (by simp)

theorem addDanglingPackage_acyclic {st : GraphState} (nm : String)
    (parent : Package) (hacy : Acyclic st.graph.edges) :
    Acyclic (addDanglingPackage st nm parent).1.graph.edges := by
  have h1 := addVertexTol_edges st (Package.dangling nm)
  unfold addDanglingPackage
  dsimp only
  split
  next st1 e heq =>
    rw [heq] at h1
    simpa using h1 ▸ hacy
  next st1 heq =>
    rw [heq] at h1
    have hacy1 : Acyclic st1.graph.edges := by
      simpa using h1 ▸ hacy
    split
    next g' heq2 => exact addEdgeG_acyclic heq2 hacy1
    next e heq2 => split <;> exact hacy1

theorem scanCandidates_acyclic (store : Packages) (c : Package)
    (dep localRepo : String) :
    ∀ (rs : List Candidate) (ct : String) (st : GraphState),
      Acyclic st.graph.edges →
      Acyclic (scanCandidates store st c dep localRepo ct rs).1.graph.edges := by
  intro rs
  induction rs with
  | nil => intro ct st hacy; exact hacy
  | cons r rest ih =>
    intro ct st hacy
    unfold scanCandidates
    split
    · exact ih ct st hacy
    next hskip =>
      split
      next e heq => exact hacy
      next pkg heq =>
        have h1 := addVertexTol_edges st pkg
        split
        next st1 e heq2 =>
          rw [heq2] at h1
          simpa using h1 ▸ hacy
        next st1 heq2 =>
          rw [heq2] at h1
          have hacy1 : Acyclic st1.graph.edges := by
            simpa using h1 ▸ hacy
          split
          · exact ih _ st1 hacy1
          · split
            next g' heq3 => exact addEdgeG_acyclic heq3 hacy1
            next e heq3 => split <;> exact hacy1

theorem danglingOutcome_acyclic (st : GraphState) (dep : String) (c : Package)
    (hacy : Acyclic st.graph.edges) :
    Acyclic (danglingOutcome st dep c).1.graph.edges := by
  have hd := addDanglingPackage_acyclic dep c hacy
  unfold danglingOutcome
  split
  next s1 heq => rw [heq] at hd; exact hd
  next s1 e heq => rw [heq] at hd; exact hd

theorem addAppropriatePackage_acyclic (store : Packages) (opts : GraphOpts)
    (st : GraphState) (resolver : Resolver) (c : Package)
    (dep localRepo : String) (hacy : Acyclic st.graph.edges) :
    Acyclic (addAppropriatePackage store opts st resolver c dep localRepo).1.graph.edges := by
  unfold addAppropriatePackage
  split
  next msg heq =>
    split
    · exact danglingOutcome_acyclic st dep c hacy
    · exact hacy
  next heq =>
    split
    · exact danglingOutcome_acyclic st dep c hacy
    · exact hacy
  next r rest heq =>
    have hscan := scanCandidates_acyclic store c dep localRepo (r :: rest) "" st hacy
    split
    next st1 heq2 => rw [heq2] at hscan; exact hscan
    next st1 e heq2 => rw [heq2] at hscan; exact hscan
    next st1 ct heq2 =>
      rw [heq2] at hscan
      split
      · exact hscan
      · split
        · exact hscan
        · exact danglingOutcome_acyclic st1 dep c hscan

theorem resolveCycle_acyclic (store : Packages) (opts : GraphOpts)
    (st : GraphState) (c : cycle) (dep : String) (resolver : Resolver)
    (localRepoSource : String) (hacy : Acyclic st.graph.edges) :
    Acyclic (resolveCycle store opts st c dep resolver localRepoSource).1.graph.edges := by
  unfold resolveCycle
  split
  next e heq => exact hacy
  next sp heq =>
    split
    · exact hacy
    · dsimp only
      split
      next e heq2 => exact hacy
      next edge heq2 =>
        split
        · exact hacy
        next origDep heq3 =>
          split
          next e heq4 => exact hacy
          next g1 heq4 =>
            have hacy1 : Acyclic g1.edges := removeEdgeG_acyclic heq4 hacy
            split
            next e heq5 => exact hacy1
            next g2 heq5 =>
              have hacy2 : Acyclic g2.edges := addEdgeG_acyclic heq5 hacy1
              split
              next e heq6 => exact hacy2
              next config heq6 =>
                have := addAppropriatePackage_acyclic store opts
                  ({ st with graph := g2 }) resolver config origDep
                  localRepoSource hacy2
                split
                next st3 e heq7 => rw [heq7] at this; exact this
                next st3 cy heq7 => rw [heq7] at this; exact this
                next st3 heq7 => rw [heq7] at this; exact this

theorem subpkgStep_acyclic (c : Configuration)
    (acc : GraphState × List DagErr) (sv : Configuration)
    (hacy : Acyclic acc.1.graph.edges) :
    Acyclic (subpkgStep c acc sv).1.graph.edges := by
  obtain ⟨st, errs⟩ := acc
  unfold subpkgStep
  dsimp only
  split
  · exact hacy
  · have h1 := addVertexTol_edges st (Package.origin sv)
    split
    next st1 e heq =>
      rw [heq] at h1
      simpa using h1 ▸ hacy
    next st1 heq =>
      rw [heq] at h1
      have hacy1 : Acyclic st1.graph.edges := by
        simpa using h1 ▸ hacy
      split
      next g' heq2 => exact addEdgeG_acyclic heq2 hacy1
      next e heq2 => split <;> exact hacy1

theorem foldl_preserve {α β : Type} (P : β → Prop) (f : β → α → β)
    (hf : ∀ b a, P b → P (f b a)) :
    ∀ (l : List α) (b : β), P b → P (List.foldl f b l) := by
  intro l
  induction l with
  | nil => intro b hb; exact hb
  | cons a l ih => intro b hb; exact ih (f b a) (hf b a hb)

theorem addSubpackages_acyclic (store : Packages) (c : Configuration)
    (start : GraphState × List DagErr) (hacy : Acyclic start.1.graph.edges) :
    Acyclic (addSubpackages store c start).1.graph.edges := by
  unfold addSubpackages
  refine foldl_preserve
    (fun acc : GraphState × List DagErr => Acyclic acc.1.graph.edges) _ ?_ _ _ hacy
  intro acc subName hacc
  exact foldl_preserve
    (fun acc : GraphState × List DagErr => Acyclic acc.1.graph.edges)
    (subpkgStep c) (fun b a hb => subpkgStep_acyclic c b a hb) _ acc hacc

theorem processDeps_acyclic (ctx : BuildCtx) (resolver : Resolver)
    (c : Configuration) :
    ∀ (deps : List String) (bs : BuildState), Acyclic bs.st.graph.edges →
      Acyclic (processDeps ctx resolver c bs deps).st.graph.edges := by
  intro deps
  induction deps with
  | nil => intro bs h; exact h
  | cons dep rest ih =>
    intro bs hacy
    unfold processDeps
    split
    · exact ih _ hacy
    · have happ := addAppropriatePackage_acyclic ctx.store ctx.opts bs.st
        resolver (.origin c) dep ctx.store.localSource hacy
      split
      next st' e heq => rw [heq] at happ; exact ih _ happ
      next st' heq => rw [heq] at happ; exact ih _ happ
      next st' cyc heq =>
        rw [heq] at happ
        have hres := resolveCycle_acyclic ctx.store ctx.opts st' cyc dep
          resolver ctx.store.localSource happ
        split
        next st'' heq2 => rw [heq2] at hres; exact ih _ hres
        next st'' e heq2 => rw [heq2] at hres; exact ih _ hres

theorem processPackage_acyclic {ctx : BuildCtx} {bs bs' : BuildState}
    {c : Configuration} (h : processPackage ctx bs c = .ok bs')
    (hacy : Acyclic bs.st.graph.edges) : Acyclic bs'.st.graph.edges := by
  unfold processPackage at h
  have h0 := addVertexTol_edges bs.st (Package.origin c)
  split at h
  next e heq =>
    cases h
    exact hacy
  next st0 heq =>
    rw [heq] at h0
    have hacy0 : Acyclic st0.graph.edges := by
      simpa using h0 ▸ hacy
    have hsub := addSubpackages_acyclic ctx.store c (st0, bs.errs) hacy0
    split at h
    next st1 errs1 heq2 =>
      rw [heq2] at hsub
      split at h
      · exact absurd h (by simp)
      · split at h
        · exact absurd h (by simp)
        next srcs heq3 =>
          cases h
          exact processDeps_acyclic ctx (ctx.env.resolverFor c) c c.packages _ hsub

theorem runLoop_acyclic (ctx : BuildCtx) :
    ∀ (cs : List Configuration) (bs bs' : BuildState),
      runLoop ctx cs bs = .ok bs' → Acyclic bs.st.graph.edges →
      Acyclic bs'.st.graph.edges := by
  intro cs
  induction cs with
  | nil =>
    intro bs bs' h hacy
    cases h
    exact hacy
  | cons c rest ih =>
    intro bs bs' h hacy
    unfold runLoop at h
    split at h
    · exact absurd h (by simp)
    next bs1 heq => exact ih bs1 bs' h (processPackage_acyclic heq hacy)

/-- C1 core: a graph successfully returned by `NewGraph` is acyclic. -/
theorem newGraphM_acyclic {ctx : BuildCtx} {st : GraphState}
    (h : NewGraphM ctx = .ok st) : Acyclic st.graph.edges := by
  unfold NewGraphM at h
  split at h
  · exact absurd h (by simp)
  next bs heq =>
    split at h
    · cases h
      exact runLoop_acyclic ctx ctx.store.pkgList initialBuildState bs heq acyclic_nil
    · exact absurd h (by simp)

theorem pickZeroIn_some {es : List Edge} {remaining : List String} {v : String}
    (h : pickZeroIn es remaining = some v) :
    v ∈ remaining ∧ ∀ e ∈ es, ¬(e.tgt = v ∧ e.src ∈ remaining) := by
  unfold pickZeroIn at h
  have hmem := List.mem_of_find?_eq_some h
  have hpred := List.find?_some h
  refine ⟨hmem, ?_⟩
  rintro e he ⟨htgt, hsrc⟩
  simp only [Bool.not_eq_true', List.any_eq_false] at hpred
  have h1 := hpred e he
  rw [htgt] at h1
  apply h1
  simp [hsrc]

theorem pickZeroIn_none {es : List Edge} {remaining : List String}
    (h : pickZeroIn es remaining = none) :
    ∀ v ∈ remaining, ∃ e ∈ es, e.tgt = v ∧ e.src ∈ remaining := by
  intro v hv
  unfold pickZeroIn at h
  have := List.find?_eq_none.mp h v hv
  simp only [Bool.not_eq_true', Bool.not_eq_false, List.any_eq_true,
    Bool.and_eq_true, beq_iff_eq] at this
  obtain ⟨e, he, htgt, hsrc⟩ := this
  exact ⟨e, he, htgt, by simpa using hsrc⟩

theorem kahnAux_subset {es : List Edge} :
    ∀ {n : Nat} {remaining l : List String},
      kahnAux es n remaining = .ok l → ∀ x ∈ l, x ∈ remaining := by
  intro n
  induction n with
  | zero =>
    intro remaining l h x hx
    unfold kahnAux at h
    split at h
    · cases h; simp at hx
    · exact absurd h (by simp)
  | succ n ih =>
    intro remaining l h x hx
    unfold kahnAux at h
    split at h
    · cases h; simp at hx
    · split at h
      · exact absurd h (by simp)
      next v heq =>
        split at h
        next l' heq2 =>
          cases h
          rcases List.mem_cons.mp hx with rfl | hx'
          · exact (pickZeroIn_some heq).1
          · exact List.mem_of_mem_erase (ih heq2 x hx')
        · exact absurd h (by simp)

theorem kahnAux_complete {es : List Edge} :
    ∀ {n : Nat} {remaining l : List String},
      kahnAux es n remaining = .ok l → ∀ x ∈ remaining, x ∈ l := by
  intro n
  induction n with
  | zero =>
    intro remaining l h x hx
    unfold kahnAux at h
    split at h
    next hemp => cases h; simp_all [List.isEmpty_iff]
    · exact absurd h (by simp)
  | succ n ih =>
    intro remaining l h x hx
    unfold kahnAux at h
    split at h
    next hemp => cases h; simp_all [List.isEmpty_iff]
    · split at h
      · exact absurd h (by simp)
      next v heq =>
        split at h
        next l' heq2 =>
          cases h
          by_cases hxv : x = v
          · simp [hxv]
          · exact List.mem_cons_of_mem v
              (ih heq2 x ((List.mem_erase_of_ne hxv).mpr hx))
        · exact absurd h (by simp)

theorem kahnAux_order {es : List Edge} :
    ∀ {n : Nat} {remaining l : List String},
      kahnAux es n remaining = .ok l →
      ∀ e ∈ es, e.src ∈ remaining → e.tgt ∈ remaining →
        List.Sublist [e.src, e.tgt] l := by
  intro n
  induction n with
  | zero =>
    intro remaining l h e he hsrc htgt
    unfold kahnAux at h
    split at h
    next hemp => simp_all [List.isEmpty_iff]
    · exact absurd h (by simp)
  | succ n ih =>
    intro remaining l h e he hsrc htgt
    unfold kahnAux at h
    split at h
    next hemp => simp_all [List.isEmpty_iff]
    · split at h
      · exact absurd h (by simp)
      next v heq =>
        split at h
        next l' heq2 =>
          cases h
          have hprops := pickZeroIn_some heq
          by_cases hsv : e.src = v
          · have htv : e.tgt ≠ v := by
              intro htv
              exact hprops.2 e he ⟨htv, hsrc⟩
            have : e.tgt ∈ l' := kahnAux_complete heq2 e.tgt
              ((List.mem_erase_of_ne htv).mpr htgt)
            rw [hsv]
            exact List.Sublist.cons₂ v (List.singleton_sublist.mpr this)
          · have htv : e.tgt ≠ v := by
              intro htv
              exact hprops.2 e he ⟨htv, hsrc⟩
            exact List.Sublist.cons v
              (ih heq2 e he ((List.mem_erase_of_ne hsv).mpr hsrc)
                ((List.mem_erase_of_ne htv).mpr htgt))
        · exact absurd h (by simp)

/-- Every edge of a walk has its source at the walk start or at the target
of another walk edge. -/
theorem isWalk_src_cases {es : List Edge} :
    ∀ {w : List Edge} {a b : String}, IsWalk es w a b →
      ∀ e ∈ w, e.src = a ∨ ∃ e' ∈ w, e'.tgt = e.src := by
  intro w a b hw
  induction hw with
  | nil => simp
  | @cons e0 he0 w' b' hw' ih =>
    intro e he
    rcases List.mem_cons.mp he with rfl | he'
    · exact Or.inl rfl
    · rcases ih e he' with h1 | ⟨e', he'', htgt⟩
      · exact Or.inr ⟨e0, by simp, h1.symm ▸ rfl⟩
      · exact Or.inr ⟨e', List.mem_cons_of_mem e0 he'', htgt⟩

theorem isWalk_last_tgt {es : List Edge} :
    ∀ {w : List Edge} {a b : String}, IsWalk es w a b → w ≠ [] →
      ∃ e ∈ w, e.tgt = b := by
  intro w a b hw
  induction hw with
  | nil => intro h; exact absurd rfl h
  | @cons e0 he0 w' b' hw' ih =>
    intro _
    by_cases hw'nil : w' = []
    · subst hw'nil
      exact ⟨e0, by simp, isWalk_nil_eq hw'⟩
    · obtain ⟨e, he, htgt⟩ := ih hw'nil
      exact ⟨e, List.mem_cons_of_mem e0 he, htgt⟩

/-- In the presence of a closed walk whose vertices all remain, Kahn's
algorithm reports a cycle. -/
theorem kahnAux_cycle_error {es : List Edge} :
    ∀ (n : Nat) (remaining : List String) (w : List Edge) (v : String),
      w ≠ [] → IsWalk es w v v →
      (∀ e ∈ w, e.src ∈ remaining ∧ e.tgt ∈ remaining) →
      kahnAux es n remaining = .error .topoCycle := by
  intro n
  induction n with
  | zero =>
    intro remaining w v hne hw hmem
    unfold kahnAux
    split
    next hemp =>
      cases w with
      | nil => exact absurd rfl hne
      | cons e w' =>
        have := (hmem e (by simp)).1
        simp_all [List.isEmpty_iff]
    · rfl
  | succ n ih =>
    intro remaining w v hne hw hmem
    unfold kahnAux
    split
    next hemp =>
      cases w with
      | nil => exact absurd rfl hne
      | cons e w' =>
        have := (hmem e (by simp)).1
        simp_all [List.isEmpty_iff]
    · split
      · rfl
      next v' heq =>
        have hprops := pickZeroIn_some heq
        -- no walk edge targets v'
        have htgt : ∀ e ∈ w, e.tgt ≠ v' := by
          intro e he htv
          exact hprops.2 e (isWalk_edges_mem hw e he) ⟨htv, (hmem e he).1⟩
        -- hence no walk vertex equals v'
        have hsrc : ∀ e ∈ w, e.src ≠ v' := by
          intro e he hsv
          rcases isWalk_src_cases hw e he with h1 | ⟨e', he', h2⟩
          · obtain ⟨el, hel, hlt⟩ := isWalk_last_tgt hw hne
            exact htgt el hel (by rw [hlt, ← h1, hsv])
          · exact htgt e' he' (by rw [h2, hsv])
        have hmem' : ∀ e ∈ w, e.src ∈ remaining.erase v' ∧
            e.tgt ∈ remaining.erase v' := by
          intro e he
          exact ⟨(List.mem_erase_of_ne (hsrc e he)).mpr (hmem e he).1,
            (List.mem_erase_of_ne (htgt e he)).mpr (hmem e he).2⟩
        rw [ih (remaining.erase v') w v hne hw hmem']

/-- A walk longer than the edge list forces a closed walk. -/
theorem closed_of_long_walk {es : List Edge} {w : List Edge} {a b : String}
    (hw : IsWalk es w a b) (hlong : es.length < w.length) :
    ∃ v, Reaches es v v := by
  by_cases hnd : w.Nodup
  · exact absurd (walk_length_le hw hnd) (by omega)
  · obtain ⟨e, hdup⟩ := List.exists_duplicate_iff_not_nodup.mpr hnd
    obtain ⟨l₁, l₂, l₃, rfl⟩ := sublist_pair_split (List.duplicate_iff_sublist.mp hdup)
    obtain ⟨m₁, hw₁, hw₂⟩ := @isWalk_append_split _ l₁ _ _ _ hw
    cases hw₂ with
    | cons _ he hw₂' =>
      obtain ⟨m₂, hw₃, hw₄⟩ := @isWalk_append_split _ l₂ _ _ _ hw₂'
      cases hw₄ with
      | cons _ _ hw₅ =>
        exact ⟨e.src, ⟨e :: l₂, by simp, IsWalk.cons e he hw₃⟩⟩

/-- On an acyclic edge set, Kahn's algorithm succeeds given enough fuel. -/
theorem kahnAux_progress {es : List Edge} (hacy : Acyclic es) :
    ∀ (n : Nat) (remaining : List String), remaining.length ≤ n →
      ∃ l, kahnAux es n remaining = .ok l := by
  intro n
  induction n with
  | zero =>
    intro remaining hlen
    rw [Nat.le_zero, List.length_eq_zero] at hlen
    exact ⟨[], by simp [hlen, kahnAux]⟩
  | succ n ih =>
    intro remaining hlen
    unfold kahnAux
    split
    · exact ⟨[], rfl⟩
    next hemp =>
      rcases hpick : pickZeroIn es remaining with _ | v
      · -- all remaining vertices have an incoming edge: build ever longer
        -- walks and derive a closed walk, contradicting acyclicity
        exfalso
        have hne : remaining ≠ [] := by
          intro h; rw [h] at hemp; simp at hemp
        obtain ⟨v₀, hv₀⟩ := List.exists_mem_of_ne_nil remaining hne
        have hstep := pickZeroIn_none hpick
        have hchain : ∀ k, ∃ a w, a ∈ remaining ∧ w.length = k + 1 ∧
            IsWalk es w a v₀ := by
          intro k
          induction k with
          | zero =>
            obtain ⟨e, he, htgt, hsrc⟩ := hstep v₀ hv₀
            exact ⟨e.src, [e], hsrc, rfl, IsWalk.cons e he (htgt ▸ IsWalk.nil e.tgt)⟩
          | succ k ihk =>
            obtain ⟨a, w, ha, hlen', hwk⟩ := ihk
            obtain ⟨e, he, htgt, hsrc⟩ := hstep a ha
            exact ⟨e.src, e :: w, hsrc, by simp [hlen'],
              IsWalk.cons e he (htgt ▸ hwk)⟩
        obtain ⟨a, w, ha, hlen', hwk⟩ := hchain es.length
        obtain ⟨v, hv⟩ := closed_of_long_walk hwk (by omega)
        exact hacy v hv
      · have hvmem := (pickZeroIn_some hpick).1
        have : (remaining.erase v).length ≤ n := by
          rw [List.length_erase_of_mem hvmem]
          have : remaining.length ≠ 0 := by
            intro h
            rw [List.length_eq_zero] at h
            rw [h] at hemp; simp at hemp
          omega
        obtain ⟨l', hl'⟩ := ih (remaining.erase v) this
        exact ⟨v :: l', by dsimp only; rw [hl']⟩

theorem vertexG_ok_of_mem {g : GGraph} {h : String}
    (hm : h ∈ g.vertices.map Prod.fst) : ∃ p, vertexG g h = .ok p := by
  unfold vertexG
  rcases hfind : g.vertices.find? (fun v => v.1 == h) with _ | v
  · exfalso
    rw [List.find?_eq_none] at hfind
    obtain ⟨v, hv, heq⟩ := List.mem_map.mp hm
    have := hfind v hv
    simp [heq] at this
  · exact ⟨v.2, by rw [hfind]⟩

theorem mapM_ok_of_forall {α β ε : Type} (f : α → Except ε β) :
    ∀ (l : List α), (∀ x ∈ l, ∃ y, f x = .ok y) →
      ∃ ys, l.mapM f = .ok ys ∧ List.Forall₂ (fun x y => f x = .ok y) l ys := by
  intro l
  induction l with
  | nil => exact fun _ => ⟨[], rfl, List.Forall₂.nil⟩
  | cons x xs ih =>
    intro hall
    obtain ⟨y, hy⟩ := hall x (by simp)
    obtain ⟨ys, hys, hfa⟩ := ih (fun z hz => hall z (by simp [hz]))
    refine ⟨y :: ys, ?_, List.Forall₂.cons hy hfa⟩
    rw [List.mapM_cons, hy, hys]
    rfl

theorem forall2_vertexOf {g : GGraph} :
    ∀ {l : List String} {ys : List Package},
      List.Forall₂ (fun x y => vertexG g x = .ok y) l ys →
      ys = l.map (vertexOf g) := by
  intro l ys h
  induction h with
  | nil => rfl
  | @cons x y l' ys' h1 h2 ih => simp [vertexOf, h1, ih]

/--
C4: on a well-formed graph state, (1) when the edge set is acyclic,
`Sorted` succeeds and every edge's source package appears before its
target package, while `ReverseSorted` is exactly the reverse (so the
target appears before the source); (2) when the edge set is not acyclic,
both fail with an error.
-/
theorem sorted_topological (st : GraphState) (hwf : GraphWF st.graph) :
    (Acyclic st.graph.edges →
      ∃ order pkgs, topoSortG st.graph = .ok order ∧ SortedM st = .ok pkgs ∧
        ReverseSortedM st = .ok pkgs.reverse ∧
        pkgs = order.map (vertexOf st.graph) ∧
        ∀ e ∈ st.graph.edges,
          List.Sublist [e.src, e.tgt] order ∧
          List.Sublist [vertexOf st.graph e.src, vertexOf st.graph e.tgt] pkgs ∧
          List.Sublist [vertexOf st.graph e.tgt, vertexOf st.graph e.src]
            pkgs.reverse) ∧
    (¬ Acyclic st.graph.edges →
      SortedM st = .error .topoCycle ∧ ReverseSortedM st = .error .topoCycle) := by
  constructor
  · intro hacy
    obtain ⟨order, horder⟩ := kahnAux_progress hacy st.graph.vertices.length
      (st.graph.vertices.map Prod.fst) (by simp)
    have hsub := kahnAux_subset horder
    have hallok : ∀ x ∈ order, ∃ p, vertexG st.graph x = .ok p :=
      fun x hx => vertexG_ok_of_mem (hsub x hx)
    obtain ⟨pkgs, hmapM, hfa⟩ := mapM_ok_of_forall _ order hallok
    have hpkgs : pkgs = order.map (vertexOf st.graph) := forall2_vertexOf hfa
    have htopo : topoSortG st.graph = .ok order := horder
    have hSorted : SortedM st = .ok pkgs := by
      unfold SortedM
      rw [htopo]
      exact hmapM
    have hRev : ReverseSortedM st = .ok pkgs.reverse := by
      unfold ReverseSortedM
      rw [hSorted]
    refine ⟨order, pkgs, htopo, hSorted, hRev, hpkgs, ?_⟩
    intro e he
    have hord : List.Sublist [e.src, e.tgt] order :=
      kahnAux_order horder e he (hwf.2 e he).1 (hwf.2 e he).2
    have hmap : List.Sublist [vertexOf st.graph e.src, vertexOf st.graph e.tgt]
        pkgs := by
      rw [hpkgs]
      exact List.Sublist.map (vertexOf st.graph) hord
    refine ⟨hord, hmap, ?_⟩
    have := List.Sublist.reverse hmap
    simpa using this
  · intro hncy
    rw [Acyclic] at hncy
    push_neg at hncy
    obtain ⟨v, hv⟩ := hncy
    obtain ⟨w, hne, hw⟩ := hv
    have hmem : ∀ e ∈ w, e.src ∈ st.graph.vertices.map Prod.fst ∧
        e.tgt ∈ st.graph.vertices.map Prod.fst :=
      fun e he => hwf.2 e (isWalk_edges_mem hw e he)
    have herr := kahnAux_cycle_error st.graph.vertices.length
      (st.graph.vertices.map Prod.fst) w v hne hw hmem
    have hSorted : SortedM st = .error .topoCycle := by
      unfold SortedM
      rw [show topoSortG st.graph = .error .topoCycle from herr]
    refine ⟨hSorted, ?_⟩
    unfold ReverseSortedM
    rw [hSorted]

/-! ### Filter correctness (claim C3) -/

theorem hasVertexB_iff {g : GGraph} {h : String} :
    hasVertexB g h = true ↔ h ∈ g.vertices.map Prod.fst := by
  unfold hasVertexB
  rw [List.any_eq_true]
  simp only [beq_iff_eq, List.mem_map]

theorem addVertexTol_not_exists {st : GraphState} {p : Package}
    (h : ¬ hasVertexB st.graph (packageHash p) = true) :
    (addVertexTol st p).1.graph.vertices =
      (packageHash p, p) :: st.graph.vertices := by
  unfold addVertexTol addVertexD addVertexG
  rw [if_neg h]

/-- Pass 1 of `Filter` keeps exactly the vertices passing the filter. -/
theorem filterVertexPass_mem (f : FilterP) :
    ∀ (vs : List (String × Package)) (st0 : GraphState),
      (∀ v ∈ vs, v.1 = packageHash v.2) →
      (vs.map Prod.fst).Nodup →
      (∀ v ∈ vs, ¬ hasVertexB st0.graph v.1 = true) →
      ∀ hp : String × Package,
        hp ∈ (vs.foldl
          (fun acc v => if f v.2 then (addVertexTol acc v.2).1 else acc)
            st0).graph.vertices ↔
          hp ∈ st0.graph.vertices ∨ (hp ∈ vs ∧ f hp.2 = true) := by
  intro vs
  induction vs with
  | nil => intro st0 _ _ _ hp; simp
  | cons v rest ih =>
    intro st0 hhc hnd hdisj hp
    simp only [List.foldl_cons]
    by_cases hf : f v.2 = true
    · rw [if_pos hf]
      have hnv : ¬ hasVertexB st0.graph (packageHash v.2) = true := by
        have := hdisj v (by simp)
        rwa [hhc v (by simp)] at this
      have hverts := addVertexTol_not_exists hnv
      have hdisj' : ∀ x ∈ rest, ¬ hasVertexB (addVertexTol st0 v.2).1.graph x.1 = true := by
        intro x hx
        rw [hasVertexB_iff]
        rw [hverts]
        simp only [List.map_cons, List.mem_cons]
        rintro (heq | hmem)
        · rw [← hhc v (by simp)] at heq
          have : x.1 ∈ rest.map Prod.fst := List.mem_map_of_mem Prod.fst hx
          rw [heq] at this
          simp only [List.map_cons, List.nodup_cons] at hnd
          exact hnd.1 this
        · exact hdisj x (List.mem_cons_of_mem v hx) (hasVertexB_iff.mpr hmem)
      have := ih (addVertexTol st0 v.2).1
        (fun x hx => hhc x (List.mem_cons_of_mem v hx))
        (by simp only [List.map_cons, List.nodup_cons] at hnd; exact hnd.2)
        hdisj' hp
      rw [this, hverts]
      have hv2 : (packageHash v.2, v.2) = v := by
        rw [← hhc v (by simp)]
      rw [hv2]
      constructor
      · rintro (h1 | h2)
        · rcases List.mem_cons.mp h1 with rfl | h1'
          · exact Or.inr ⟨by simp, hf⟩
          · exact Or.inl h1'
        · exact Or.inr ⟨List.mem_cons_of_mem v h2.1, h2.2⟩
      · rintro (h1 | ⟨h2, h3⟩)
        · exact Or.inl (List.mem_cons_of_mem v h1)
        · rcases List.mem_cons.mp h2 with rfl | h2'
          · exact Or.inl (by simp)
          · exact Or.inr ⟨h2', h3⟩
    · rw [if_neg hf]
      have := ih st0 (fun x hx => hhc x (List.mem_cons_of_mem v hx))
        (by simp only [List.map_cons, List.nodup_cons] at hnd; exact hnd.2)
        (fun x hx => hdisj x (List.mem_cons_of_mem v hx)) hp
      rw [this]
      constructor
      · rintro (h1 | h2)
        · exact Or.inl h1
        · exact Or.inr ⟨List.mem_cons_of_mem v h2.1, h2.2⟩
      · rintro (h1 | ⟨h2, h3⟩)
        · exact Or.inl h1
        · rcases List.mem_cons.mp h2 with rfl | h2'
          · exact absurd h3 hf
          · exact Or.inr ⟨h2', h3⟩

theorem addEdgeG_vertices {g g' : GGraph} {u v : String} {attr : Option String}
    (h : addEdgeG g u v attr = .ok g') : g'.vertices = g.vertices := by
  unfold addEdgeG at h
  split at h
  · exact absurd h (by simp)
  split at h
  · exact absurd h (by simp)
  split at h
  · exact absurd h (by simp)
  split at h
  · exact absurd h (by simp)
  cases h; rfl

theorem addEdgeG_edges {g g' : GGraph} {u v : String} {attr : Option String}
    (h : addEdgeG g u v attr = .ok g') :
    g'.edges = ⟨u, v, attr⟩ :: g.edges := by
  unfold addEdgeG at h
  split at h
  · exact absurd h (by simp)
  split at h
  · exact absurd h (by simp)
  split at h
  · exact absurd h (by simp)
  split at h
  · exact absurd h (by simp)
  cases h; rfl

/-- One pass-2 step: the resulting edge pairs are the old ones plus the
candidate edge when both its endpoints survive. -/
theorem filterEdgeStep_spec {acc acc' : GraphState} {e : Edge}
    (h : filterEdgeStep acc e = .ok acc') :
    acc'.graph.vertices = acc.graph.vertices ∧
    ∀ u v : String,
      (∃ e0 ∈ acc'.graph.edges, e0.src = u ∧ e0.tgt = v) ↔
        ((∃ e0 ∈ acc.graph.edges, e0.src = u ∧ e0.tgt = v) ∨
         (e.src = u ∧ e.tgt = v ∧
           hasVertexB acc.graph u = true ∧ hasVertexB acc.graph v = true)) := by
  unfold filterEdgeStep at h
  split at h
  next hend =>
    simp only [Bool.and_eq_true] at hend
    split at h
    next g' hadd =>
      cases h
      refine ⟨addEdgeG_vertices hadd, fun u v => ?_⟩
      rw [show ({ acc with graph := g' } : GraphState).graph.edges = g'.edges from rfl,
        addEdgeG_edges hadd]
      constructor
      · rintro ⟨e0, he0, h1, h2⟩
        rcases List.mem_cons.mp he0 with rfl | he0'
        · exact Or.inr ⟨h1, h2, h1 ▸ hend.1, h2 ▸ hend.2⟩
        · exact Or.inl ⟨e0, he0', h1, h2⟩
      · rintro (⟨e0, he0, hh⟩ | ⟨h1, h2, _, _⟩)
        · exact ⟨e0, List.mem_cons_of_mem _ he0, hh⟩
        · exact ⟨⟨e.src, e.tgt, none⟩, by simp, h1, h2⟩
    next err hadd =>
      split at h
      next herr =>
        cases h
        subst herr
        have hdup : hasEdgeB acc.graph e.src e.tgt = true := by
          unfold addEdgeG at hadd
          split at hadd
          · simp_all
          split at hadd
          · simp_all
          split at hadd
          next hdup => exact hdup
          · split at hadd <;> simp_all
        unfold hasEdgeB at hdup
        rw [List.any_eq_true] at hdup
        obtain ⟨e0, he0, hpred⟩ := hdup
        simp only [Bool.and_eq_true, beq_iff_eq] at hpred
        refine ⟨rfl, fun u v => ?_⟩
        constructor
        · exact fun h1 => Or.inl h1
        · rintro (h1 | ⟨h1, h2, _, _⟩)
          · exact h1
          · exact ⟨e0, he0, h1 ▸ hpred.1, h2 ▸ hpred.2⟩
      · exact absurd h (by simp)
  next hend =>
    cases h
    refine ⟨rfl, fun u v => ?_⟩
    constructor
    · exact fun h1 => Or.inl h1
    · rintro (h1 | ⟨h1, h2, hu, hv⟩)
      · exact h1
      · exact absurd (by rw [h1, h2]; simp [hu, hv]) hend

/-- Pass 2 of `Filter` keeps exactly the original edges whose endpoints
both survived pass 1. -/
theorem filterEdgePass_mem :
    ∀ (es : List Edge) (acc sub : GraphState),
      (es.foldlM filterEdgeStep acc : Except GErr GraphState) = .ok sub →
      sub.graph.vertices = acc.graph.vertices ∧
      ∀ u v : String,
        (∃ e ∈ sub.graph.edges, e.src = u ∧ e.tgt = v) ↔
          ((∃ e ∈ acc.graph.edges, e.src = u ∧ e.tgt = v) ∨
           ∃ e ∈ es, e.src = u ∧ e.tgt = v ∧
             hasVertexB acc.graph u = true ∧ hasVertexB acc.graph v = true) := by
  intro es
  induction es with
  | nil =>
    intro acc sub h
    cases h
    exact ⟨rfl, fun u v => by simp⟩
  | cons e rest ih =>
    intro acc sub h
    rw [List.foldlM_cons] at h
    rcases hstep : filterEdgeStep acc e with err | acc'
    · rw [hstep] at h
      replace h : (Except.error err : Except GErr GraphState) = .ok sub := h
      cases h
    · rw [hstep] at h
      replace h : (rest.foldlM filterEdgeStep acc' : Except GErr GraphState) = .ok sub := h
      obtain ⟨hverts', hiff'⟩ := filterEdgeStep_spec hstep
      obtain ⟨hverts, hiff⟩ := ih acc' sub h
      have hhv : ∀ x, hasVertexB acc'.graph x = hasVertexB acc.graph x := by
        intro x
        unfold hasVertexB
        rw [hverts']
      refine ⟨by rw [hverts, hverts'], fun u v => ?_⟩
      rw [hiff u v, hiff' u v]
      constructor
      · rintro ((h1 | ⟨h1, h2, hu, hv⟩) | ⟨e', he', h1, h2, hu, hv⟩)
        · exact Or.inl h1
        · exact Or.inr ⟨e, by simp, h1, h2, hu, hv⟩
        · rw [hhv] at hu hv
          exact Or.inr ⟨e', List.mem_cons_of_mem e he', h1, h2, hu, hv⟩
      · rintro (h1 | ⟨e', he', h1, h2, hu, hv⟩)
        · exact Or.inl (Or.inl h1)
        · rcases List.mem_cons.mp he' with rfl | he''
          · exact Or.inl (Or.inr ⟨h1, h2, hu, hv⟩)
          · rw [← hhv] at hu hv
            exact Or.inr ⟨e', he'', h1, h2, hu, hv⟩

theorem filterVertexPass_edges (f : FilterP) :
    ∀ (vs : List (String × Package)) (st0 : GraphState),
      (vs.foldl (fun acc v => if f v.2 then (addVertexTol acc v.2).1 else acc)
        st0).graph.edges = st0.graph.edges := by
  intro vs
  induction vs with
  | nil => intro st0; rfl
  | cons v rest ih =>
    intro st0
    simp only [List.foldl_cons]
    split
    · rw [ih]
      exact addVertexTol_edges st0 v.2
    · exact ih st0

/--
C3: for a graph state with unique, hash-consistent vertices, a successful
`Filter` yields a subgraph whose vertex set is exactly the original
vertices passing the predicate, and which contains an edge `u → v` iff the
original graph contained it and both endpoints pass the predicate.
-/
theorem filter_correct (st : GraphState) (f : FilterP) (sub : GraphState)
    (hnd : (st.graph.vertices.map Prod.fst).Nodup)
    (hhc : ∀ v ∈ st.graph.vertices, v.1 = packageHash v.2)
    (h : FilterM st f = .ok sub) :
    (∀ hp : String × Package, hp ∈ sub.graph.vertices ↔
        hp ∈ st.graph.vertices ∧ f hp.2 = true) ∧
    (∀ u v : String,
      (∃ e ∈ sub.graph.edges, e.src = u ∧ e.tgt = v) ↔
        ((∃ e ∈ st.graph.edges, e.src = u ∧ e.tgt = v) ∧
         (∃ p, (u, p) ∈ st.graph.vertices ∧ f p = true) ∧
         (∃ q, (v, q) ∈ st.graph.vertices ∧ f q = true))) := by
  unfold FilterM filterEdgePass at h
  obtain ⟨hverts, hiff⟩ := filterEdgePass_mem st.graph.edges
    (filterVertexPass ⟨GGraph.empty, []⟩ st.graph f) sub h
  have hm : ∀ hp : String × Package,
      hp ∈ (filterVertexPass ⟨GGraph.empty, []⟩ st.graph f).graph.vertices ↔
        hp ∈ st.graph.vertices ∧ f hp.2 = true := by
    intro hp
    unfold filterVertexPass
    rw [filterVertexPass_mem f st.graph.vertices ⟨GGraph.empty, []⟩ hhc hnd
      (by intro v hv; simp [hasVertexB, GGraph.empty]) hp]
    simp [GGraph.empty]
  have hedge1 : (filterVertexPass ⟨GGraph.empty, []⟩ st.graph f).graph.edges = [] := by
    unfold filterVertexPass
    rw [filterVertexPass_edges f st.graph.vertices ⟨GGraph.empty, []⟩]
    rfl
  have hvb : ∀ u, hasVertexB (filterVertexPass ⟨GGraph.empty, []⟩ st.graph f).graph u
      = true ↔ ∃ p, (u, p) ∈ st.graph.vertices ∧ f p = true := by
    intro u
    rw [hasVertexB_iff]
    simp only [List.mem_map]
    constructor
    · rintro ⟨x, hx, hfst⟩
      obtain ⟨hst, hf⟩ := (hm x).mp hx
      refine ⟨x.2, ?_, hf⟩
      rw [← hfst]
      simpa using hst
    · rintro ⟨p, hin, hf⟩
      exact ⟨(u, p), (hm (u, p)).mpr ⟨hin, hf⟩, rfl⟩
  constructor
  · intro hp
    rw [show sub.graph.vertices =
      (filterVertexPass ⟨GGraph.empty, []⟩ st.graph f).graph.vertices from hverts]
    exact hm hp
  · intro u v
    rw [hiff u v]
    simp only [hedge1, List.not_mem_nil, false_and, exists_false,
      exists_prop, false_or]
    constructor
    · rintro ⟨e, he, h1, h2, hu, hv⟩
      exact ⟨⟨e, he, h1, h2⟩, (hvb u).mp hu, (hvb v).mp hv⟩
    · rintro ⟨⟨e, he, h1, h2⟩, hu, hv⟩
      exact ⟨e, he, h1, h2, (hvb u).mpr hu, (hvb v).mpr hv⟩

/-! ### Vertex-addition idempotence (claim C8) -/

/--
C8: adding the same (name, version, source) vertex twice leaves the graph
state unchanged from a single addition — the second raw `addVertex` call
reports vertex-already-exists, and the tolerant caller pattern keeps the
state (vertices, edges and the `byName` index) exactly as after the first
addition.
-/
theorem addVertex_idempotent (st st' : GraphState) (p : Package)
    (h : addVertexD st p = .ok st') :
    addVertexD st' p = .error .vertexAlreadyExists ∧
    addVertexTol st' p = (st', none) := by
  have hv : hasVertexB st'.graph (packageHash p) = true := by
    unfold addVertexD addVertexG at h
    by_cases hb : hasVertexB st.graph (packageHash p) = true
    · rw [if_pos hb] at h
      exact absurd h (by simp)
    · rw [if_neg hb] at h
      dsimp only at h
      cases h
      unfold hasVertexB
      simp
  have h2 : addVertexD st' p = .error .vertexAlreadyExists := by
    unfold addVertexD addVertexG
    rw [if_pos hv]
  exact ⟨h2, by unfold addVertexTol; rw [h2]; simp⟩

/-! ### Key material (claim C9) -/

/--
C9: `getKeyMaterial` resolves its identifier as a local file path or an
https URL — a missing local file yields nil bytes and no error, any other
file read failure is an error, and any scheme other than file or https
fails with a scheme-not-supported error.
-/
theorem getKeyMaterial_spec (env : SysEnv) (key : String) :
    (env.readFile key = .error .notExist → schemeOf key = "file" →
      getKeyMaterial env key = .ok none) ∧
    (∀ msg, env.readFile key = .error (.other msg) → schemeOf key = "file" →
      getKeyMaterial env key = .error (.keyReadFail key msg)) ∧
    (∀ b, env.readFile key = .ok b → schemeOf key = "file" →
      getKeyMaterial env key = .ok (some b)) ∧
    (schemeOf key ≠ "file" → schemeOf key ≠ "https" →
      getKeyMaterial env key = .error (.schemeNotSupported (schemeOf key))) := by
  refine ⟨?_, ?_, ?_, ?_⟩
  · intro hread hscheme
    unfold getKeyMaterial
    rw [hscheme]
    simp only [if_pos]
    rw [hread]
  · intro msg hread hscheme
    unfold getKeyMaterial
    rw [hscheme]
    simp only [if_pos]
    rw [hread]
  · intro b hread hscheme
    unfold getKeyMaterial
    rw [hscheme]
    simp only [if_pos]
    rw [hread]
  · intro h1 h2
    unfold getKeyMaterial
    rw [if_neg h1, if_neg h2]

/-! ### Cycle resolution (claims C5, C6, C10) -/

theorem removeEdgeG_removes {g g1 : GGraph} {u v : String}
    (h : removeEdgeG g u v = .ok g1) : hasEdgeB g1 u v = false := by
  unfold removeEdgeG at h
  split at h
  · cases h
    unfold hasEdgeB
    rw [List.any_eq_false]
    intro e he
    rw [List.mem_filter] at he
    have := he.2
    simp only [Bool.not_eq_true'] at this
    simp [this]
  · exact absurd h (by simp)

/--
C5: `resolveCycle` attempts exactly one rotation.  When the shortest path
from `c.target` to `c.src` is found, the final hop carries a
`target-origin` attribute, the hop is removed and the wanted edge
`c.src → c.target` (tagged with the current dependency name) is committed,
the outcome is decided entirely by the single re-resolution of the
culprit's displaced dependency: a clean re-resolution returns its state
with no error, and a re-resolution that reports another pending cycle
makes `resolveCycle` return an error with that same state — no second
rotation is attempted.
-/
theorem resolveCycle_single_rotation (store : Packages) (opts : GraphOpts)
    (st : GraphState) (c : cycle) (dep : String) (resolver : Resolver)
    (lrs : String) {sp : List String} {ed : Edge} {origDep : String}
    {g1 g2 : GGraph} {culprit : Package}
    (hsp : shortestPathG st.graph c.target c.src = .ok sp)
    (hlen : ¬ sp.length < 2)
    (hed : edgeG st.graph (sp.getD (sp.length - 2) "")
      (sp.getD (sp.length - 1) "") = .ok ed)
    (hattr : ed.targetOrigin = some origDep)
    (hrem : removeEdgeG st.graph (sp.getD (sp.length - 2) "")
      (sp.getD (sp.length - 1) "") = .ok g1)
    (hadd : addEdgeG g1 c.src c.target (some dep) = .ok g2)
    (hvert : vertexG g2 (sp.getD (sp.length - 2) "") = .ok culprit) :
    hasEdgeB g1 (sp.getD (sp.length - 2) "") (sp.getD (sp.length - 1) "") = false ∧
    (⟨c.src, c.target, some dep⟩ : Edge) ∈ g2.edges ∧
    (∀ st3 cyc2,
      addAppropriatePackage store opts ⟨g2, st.byName⟩ resolver culprit origDep lrs
        = (st3, .ok (some cyc2)) →
      resolveCycle store opts st c dep resolver lrs =
        (st3, some (.stillCycle (sp.getD (sp.length - 2) "") dep))) ∧
    (∀ st3,
      addAppropriatePackage store opts ⟨g2, st.byName⟩ resolver culprit origDep lrs
        = (st3, .ok none) →
      resolveCycle store opts st c dep resolver lrs = (st3, none)) := by
  refine ⟨removeEdgeG_removes hrem, ?_, ?_, ?_⟩
  · rw [addEdgeG_edges hadd]
    simp
  · intro st3 cyc2 h3
    unfold resolveCycle
    rw [hsp]
    dsimp only
    rw [if_neg hlen]
    simp only [hed, hattr, hrem, hadd, hvert, h3]
  · intro st3 h3
    unfold resolveCycle
    rw [hsp]
    dsimp only
    rw [if_neg hlen]
    simp only [hed, hattr, hrem, hadd, hvert, h3]

/--
C6: when the culprit edge (the final hop of the shortest path from
`c.target` to `c.src`) carries no `target-origin` attribute,
`resolveCycle` returns an internal-consistency error and leaves the graph
state unchanged.
-/
theorem resolveCycle_missing_attr (store : Packages) (opts : GraphOpts)
    (st : GraphState) (c : cycle) (dep : String) (resolver : Resolver)
    (lrs : String) {sp : List String} {ed : Edge}
    (hsp : shortestPathG st.graph c.target c.src = .ok sp)
    (hlen : ¬ sp.length < 2)
    (hed : edgeG st.graph (sp.getD (sp.length - 2) "")
      (sp.getD (sp.length - 1) "") = .ok ed)
    (hattr : ed.targetOrigin = none) :
    resolveCycle store opts st c dep resolver lrs =
      (st, some (.noAttributes (sp.getD (sp.length - 2) "")
        (sp.getD (sp.length - 1) ""))) := by
  unfold resolveCycle
  rw [hsp]
  dsimp only
  rw [if_neg hlen]
  simp only [hed, hattr]

/-! ### Error accumulation in NewGraph (claim C7) -/

theorem runLoop_append (ctx : BuildCtx) :
    ∀ (cs1 cs2 : List Configuration) (bs : BuildState),
      runLoop ctx (cs1 ++ cs2) bs =
        (runLoop ctx cs1 bs).bind (fun bs' => runLoop ctx cs2 bs') := by
  intro cs1
  induction cs1 with
  | nil => intro cs2 bs; rfl
  | cons c rest ih =>
    intro cs2 bs
    simp only [List.cons_append]
    have hL : runLoop ctx (c :: (rest ++ cs2)) bs =
        match processPackage ctx bs c with
        | .error e => .error e
        | .ok bs1 => runLoop ctx (rest ++ cs2) bs1 := rfl
    have hR : runLoop ctx (c :: rest) bs =
        match processPackage ctx bs c with
        | .error e => .error e
        | .ok bs1 => runLoop ctx rest bs1 := rfl
    rw [hL, hR]
    rcases hp : processPackage ctx bs c with e | bs1
    · rfl
    · exact ih cs2 bs1

theorem fetchKeysLoop_error {env : SysEnv} :
    ∀ {ks : List String} {e : DagErr}, fetchKeysLoop env ks = .error e →
      ∃ k inner, e = .keyMaterialFail k inner := by
  intro ks
  induction ks with
  | nil => intro e h; cases h
  | cons k rest ih =>
    intro e h
    simp only [fetchKeysLoop] at h
    rcases hk : getKeyMaterial env k with e' | b
    · rw [hk] at h
      dsimp only at h
      cases h
      exact ⟨k, e', rfl⟩
    · rw [hk] at h
      dsimp only at h
      exact ih h

theorem processPackage_fatal {ctx : BuildCtx} {bs : BuildState}
    {c : Configuration} {e : DagErr} (h : processPackage ctx bs c = .error e) :
    (∃ k inner, e = .keyMaterialFail k inner) ∨
    (∃ msg, e = .repoLoad c.name msg) := by
  unfold processPackage at h
  split at h
  · exact absurd h (by simp)
  next st0 heq =>
    split at h
    next st1 errs1 heq2 =>
      split at h
      next e' heq3 =>
        cases h
        exact Or.inl (fetchKeysLoop_error heq3)
      · split at h
        next msg heq4 => cases h; exact Or.inr ⟨msg, rfl⟩
        · exact absurd h (by simp)

theorem foldl_errs_mono {α : Type}
    (f : GraphState × List DagErr → α → GraphState × List DagErr)
    (hf : ∀ b a, ∃ extra, (f b a).2 = b.2 ++ extra) :
    ∀ (l : List α) (b : GraphState × List DagErr),
      ∃ extra, (l.foldl f b).2 = b.2 ++ extra := by
  intro l
  induction l with
  | nil => exact fun b => ⟨[], by simp⟩
  | cons a l ih =>
    intro b
    obtain ⟨e1, he1⟩ := hf b a
    obtain ⟨e2, he2⟩ := ih (f b a)
    exact ⟨e1 ++ e2, by rw [List.foldl_cons, he2, he1, List.append_assoc]⟩

theorem subpkgStep_errs (c : Configuration) (acc : GraphState × List DagErr)
    (sv : Configuration) : ∃ extra, (subpkgStep c acc sv).2 = acc.2 ++ extra := by
  obtain ⟨st, errs⟩ := acc
  unfold subpkgStep
  dsimp only
  split
  · exact ⟨[], by simp⟩
  · split
    next st1 e heq => exact ⟨_, rfl⟩
    next st1 heq =>
      split
      · exact ⟨[], by simp⟩
      next e heq2 =>
        split
        · exact ⟨[], by simp⟩
        · exact ⟨_, rfl⟩

theorem addSubpackages_errs (store : Packages) (c : Configuration)
    (start : GraphState × List DagErr) :
    ∃ extra, (addSubpackages store c start).2 = start.2 ++ extra := by
  unfold addSubpackages
  refine foldl_errs_mono _ ?_ _ _
  intro b a
  exact foldl_errs_mono _ (fun b a => subpkgStep_errs c b a) _ b

theorem processDeps_errs (ctx : BuildCtx) (resolver : Resolver)
    (c : Configuration) :
    ∀ (deps : List String) (bs : BuildState),
      ∃ extra, (processDeps ctx resolver c bs deps).errs = bs.errs ++ extra := by
  intro deps
  induction deps with
  | nil => intro bs; exact ⟨[], by simp [processDeps]⟩
  | cons dep rest ih =>
    intro bs
    unfold processDeps
    split
    · obtain ⟨ex, hex⟩ := ih { bs with errs := bs.errs ++ [.emptyDepName c.name] }
      exact ⟨[.emptyDepName c.name] ++ ex, by rw [hex]; simp⟩
    · split
      next st' e heq =>
        obtain ⟨ex, hex⟩ := ih { bs with st := st', errs := bs.errs ++ [e] }
        exact ⟨[e] ++ ex, by rw [hex]; simp⟩
      next st' heq =>
        obtain ⟨ex, hex⟩ := ih { bs with st := st' }
        exact ⟨ex, hex⟩
      next st' cyc heq =>
        split
        next st'' heq2 =>
          obtain ⟨ex, hex⟩ := ih { bs with st := st'' }
          exact ⟨ex, hex⟩
        next st'' e heq2 =>
          obtain ⟨ex, hex⟩ := ih { bs with st := st'', errs := bs.errs ++ [e] }
          exact ⟨[e] ++ ex, by rw [hex]; simp⟩

theorem processPackage_errs {ctx : BuildCtx} {bs bs' : BuildState}
    {c : Configuration} (h : processPackage ctx bs c = .ok bs') :
    ∃ extra, bs'.errs = bs.errs ++ extra := by
  unfold processPackage at h
  split at h
  next e heq => cases h; exact ⟨[.gerr e], rfl⟩
  next st0 heq =>
    split at h
    next st1 errs1 heq2 =>
      have hsub := addSubpackages_errs ctx.store c (st0, bs.errs)
      rw [heq2] at hsub
      obtain ⟨ex1, hex1⟩ := hsub
      split at h
      · exact absurd h (by simp)
      · split at h
        · exact absurd h (by simp)
        next srcs heq3 =>
          cases h
          obtain ⟨ex2, hex2⟩ := processDeps_errs ctx (ctx.env.resolverFor c) c
            c.packages ⟨st1, bs.loaded ++ srcs, errs1⟩
          refine ⟨ex1 ++ ex2, ?_⟩
          rw [hex2]
          dsimp only at hex1 ⊢
          rw [hex1, List.append_assoc]

/--
C7: `NewGraph` accumulates per-package errors across the whole
construction loop without stopping at the first one — the loop over a
concatenation is the monadic composition of the loops, the only
abort-early errors are key-material and repository-load failures, each
processed package only appends to the error list — and the final result
is a graph exactly when the accumulated error list is empty, otherwise
one joined error and no graph.
-/
theorem newGraph_error_accumulation (ctx : BuildCtx) :
    (∀ (cs1 cs2 : List Configuration) (bs : BuildState),
      runLoop ctx (cs1 ++ cs2) bs =
        (runLoop ctx cs1 bs).bind (fun bs' => runLoop ctx cs2 bs')) ∧
    (∀ (bs : BuildState) (c : Configuration) (e : DagErr),
      processPackage ctx bs c = .error e →
      (∃ k inner, e = .keyMaterialFail k inner) ∨
      (∃ msg, e = .repoLoad c.name msg)) ∧
    (∀ (bs bs' : BuildState) (c : Configuration),
      processPackage ctx bs c = .ok bs' →
      ∃ extra, bs'.errs = bs.errs ++ extra) ∧
    (∀ bs : BuildState, runLoop ctx ctx.store.pkgList initialBuildState = .ok bs →
      (bs.errs = [] → NewGraphM ctx = .ok bs.st) ∧
      (bs.errs ≠ [] → NewGraphM ctx = .error (.joined bs.errs))) ∧
    (∀ st : GraphState, NewGraphM ctx = .ok st →
      ∃ bs : BuildState, runLoop ctx ctx.store.pkgList initialBuildState = .ok bs ∧
        bs.errs = [] ∧ bs.st = st) := by
  refine ⟨runLoop_append ctx, fun bs c e h => processPackage_fatal h,
    fun bs bs' c h => processPackage_errs h, ?_, ?_⟩
  · intro bs hrun
    constructor
    · intro hnil
      unfold NewGraphM
      rw [hrun]
      dsimp only
      rw [if_pos hnil]
    · intro hne
      unfold NewGraphM
      rw [hrun]
      dsimp only
      rw [if_neg hne]
  · intro st h
    unfold NewGraphM at h
    split at h
    · exact absurd h (by simp)
    next bs heq =>
      split at h
      next hnil => cases h; exact ⟨bs, heq, hnil, rfl⟩
      · exact absurd h (by simp)

/-! ### Claim C2 -/

theorem hasEdgeB_eq_of_edges {g g' : GGraph} (h : g'.edges = g.edges)
    (u v : String) : hasEdgeB g' u v = hasEdgeB g u v := by
  unfold hasEdgeB
  rw [h]

/-- A committed edge never joins a vertex to itself (the `PreventCycles`
probe refuses `src = tgt`), so `AddEdge` changes no vertex's self-edge
status. -/
theorem addEdgeG_self_edges {g g' : GGraph} {u v : String}
    {attr : Option String} (h : addEdgeG g u v attr = .ok g') (w : String) :
    hasEdgeB g' w w = hasEdgeB g w w := by
  have hne : (u == v) = false := by
    unfold addEdgeG at h
    split at h
    · exact absurd h (by simp)
    split at h
    · exact absurd h (by simp)
    split at h
    · exact absurd h (by simp)
    split at h
    · exact absurd h (by simp)
    next hcyc =>
      have hc : createsCycleB g u v = false := by
        cases hc : createsCycleB g u v
        · rfl
        · exact absurd hc hcyc
      unfold createsCycleB at hc
      cases hueq : u == v
      · rfl
      · rw [hueq] at hc
        simp at hc
  unfold hasEdgeB
  rw [addEdgeG_edges h]
  simp only [List.any_cons]
  have hhead : ((⟨u, v, attr⟩ : Edge).src == w && (⟨u, v, attr⟩ : Edge).tgt == w)
      = false := by
    cases huw : u == w
    · simp [huw]
    · cases hvw : v == w
      · simp [hvw]
      · have h1 : u = w := by simpa using huw
        have h2 : v = w := by simpa using hvw
        rw [h1, h2] at hne
        simp at hne
  rw [hhead]
  simp

theorem addDanglingPackage_self (st : GraphState) (nm : String)
    (parent : Package) (w : String) :
    hasEdgeB (addDanglingPackage st nm parent).1.graph w w
      = hasEdgeB st.graph w w := by
  have h1 := addVertexTol_edges st (Package.dangling nm)
  unfold addDanglingPackage
  dsimp only
  split
  next st1 e heq =>
    rw [heq] at h1
    exact hasEdgeB_eq_of_edges h1 w w
  next st1 heq =>
    rw [heq] at h1
    have he1 : hasEdgeB st1.graph w w = hasEdgeB st.graph w w :=
      hasEdgeB_eq_of_edges h1 w w
    split
    next g' heq2 => rw [show (({ st1 with graph := g' } : GraphState), (none : Option GErr)).1.graph = g' from rfl,
      addEdgeG_self_edges heq2 w]; exact he1
    next e heq2 => split <;> exact he1

theorem scanCandidates_self (store : Packages) (c : Package)
    (dep localRepo : String) :
    ∀ (rs : List Candidate) (ct : String) (st : GraphState) (w : String),
      hasEdgeB (scanCandidates store st c dep localRepo ct rs).1.graph w w
        = hasEdgeB st.graph w w := by
  intro rs
  induction rs with
  | nil => intro ct st w; rfl
  | cons r rest ih =>
    intro ct st w
    unfold scanCandidates
    split
    · exact ih ct st w
    next hskip =>
      split
      next e heq => rfl
      next pkg heq =>
        have h1 := addVertexTol_edges st pkg
        split
        next st1 e heq2 =>
          rw [heq2] at h1
          exact hasEdgeB_eq_of_edges h1 w w
        next st1 heq2 =>
          rw [heq2] at h1
          have he1 : hasEdgeB st1.graph w w = hasEdgeB st.graph w w :=
            hasEdgeB_eq_of_edges h1 w w
          split
          · rw [ih _ st1 w]; exact he1
          · split
            next g' heq3 =>
              rw [show (({ st1 with graph := g' } : GraphState), ScanOut.committed).1.graph = g' from rfl,
                addEdgeG_self_edges heq3 w]
              exact he1
            next e heq3 => split <;> exact he1

theorem danglingOutcome_self (st : GraphState) (dep : String) (c : Package)
    (w : String) :
    hasEdgeB (danglingOutcome st dep c).1.graph w w = hasEdgeB st.graph w w := by
  have hd := addDanglingPackage_self st dep c w
  unfold danglingOutcome
  split
  next s1 heq => rw [heq] at hd; exact hd
  next s1 e heq => rw [heq] at hd; exact hd

/-- The candidate scan and its fallbacks never commit a self-edge: every
vertex's self-edge status is unchanged by `addAppropriatePackage`. -/
theorem addAppropriatePackage_self (store : Packages) (opts : GraphOpts)
    (st : GraphState) (resolver : Resolver) (c : Package)
    (dep localRepo w : String) :
    hasEdgeB (addAppropriatePackage store opts st resolver c dep localRepo).1.graph w w
      = hasEdgeB st.graph w w := by
  unfold addAppropriatePackage
  split
  next msg heq =>
    split
    · exact danglingOutcome_self st dep c w
    · rfl
  next heq =>
    split
    · exact danglingOutcome_self st dep c w
    · rfl
  next r rest heq =>
    have hscan := scanCandidates_self store c dep localRepo (r :: rest) "" st w
    split
    next st1 heq2 => rw [heq2] at hscan; exact hscan
    next st1 e heq2 => rw [heq2] at hscan; exact hscan
    next st1 ct heq2 =>
      rw [heq2] at hscan
      split
      · exact hscan
      · split
        · exact hscan
        · rw [danglingOutcome_self st1 dep c w]; exact hscan

/--
C2 counterexample: the origin `A@1.0` declares a dependency on the name
`A`; the resolver offers a single candidate named `B` at version `1.0` —
the candidate's name differs from the origin's name, so by the claim it
must not be skipped and the edge should be committed; the code skips it
(its test compares the dependency name, not the candidate name, with the
origin's name) and fails with an unfulfilled-dependency error, committing
no edge.
-/
theorem skip_candidate_counterexample :
    c2r.cname ≠ c2c.pname ∧
    c2res "A" = .ok [c2r] ∧
    addAppropriatePackage c2store c2opts c2st c2res c2c "A" "local-idx"
      = (c2st, .error (.unfulfilledDep "A" "A")) ∧
    hasEdgeB (addAppropriatePackage c2store c2opts c2st c2res c2c "A" "local-idx").1.graph
      (packageHash c2c) (packageHash (Package.external "B" "1.0" "ext-uri")) = false :=
  ⟨by decide, rfl, rfl, rfl⟩

/--
C2 (amended): during candidate scanning in `addAppropriatePackage`, a
resolved candidate is skipped exactly when the candidate's version equals
the origin's `Version()` and the *dependency name being resolved* equals
the origin's `Name()` (the candidate's own name is not consulted):
scanning a candidate meeting that condition is identical to scanning
without it.  A package `p@v` never gains a self-edge:
`addAppropriatePackage` leaves every vertex's self-edge status unchanged,
and a candidate resolving to the origin itself (under a different
dependency name, so the skip does not apply) is caught by the cycle probe
and handed back as a pending cycle with no edge committed.  A same-name
candidate at a different version is permitted — `A@2.0`'s dependency on
name `A` resolves to `A@1.0` and gains the edge.
-/
theorem skip_candidate_condition :
    (∀ (store : Packages) (c : Package) (dep localRepo ct : String)
        (st : GraphState) (r : Candidate) (rest : List Candidate),
      r.cversion = c.pversion → dep = c.pname →
      scanCandidates store st c dep localRepo ct (r :: rest) =
        scanCandidates store st c dep localRepo ct rest) ∧
    (∀ (store : Packages) (opts : GraphOpts) (st : GraphState)
        (resolver : Resolver) (c : Package) (dep localRepo v : String),
      hasEdgeB (addAppropriatePackage store opts st resolver c dep localRepo).1.graph v v
        = hasEdgeB st.graph v v) ∧
    (addAppropriatePackage c2store3 c2opts c2st c2res3 c2c "prov" "local-idx").2
      = .ok (some ⟨packageHash c2c, packageHash c2c⟩) ∧
    hasEdgeB (addAppropriatePackage c2store3 c2opts c2st c2res3 c2c "prov" "local-idx").1.graph
      (packageHash c2c) (packageHash c2c) = false ∧
    (addAppropriatePackage c2store c2opts c2st2 c2res2 c2c2 "A" "local-idx").2
      = .ok none ∧
    hasEdgeB (addAppropriatePackage c2store c2opts c2st2 c2res2 c2c2 "A" "local-idx").1.graph
      (packageHash c2c2) (packageHash (Package.external "A" "1.0" "ext-uri")) = true := by
  refine ⟨?_, fun store opts st resolver c dep localRepo v =>
    addAppropriatePackage_self store opts st resolver c dep localRepo v,
    rfl, rfl, rfl, rfl⟩
  intro store c dep localRepo ct st r rest h1 h2
  conv_lhs => rw [scanCandidates]
  rw [if_pos (show (r.cversion == c.pversion && dep == c.pname) = true by
    simp [h1, h2])]

theorem skip_candidate_condition_witness :
    scanCandidates c2store c2st c2c "A" "local-idx" "" [c2r0] =
      scanCandidates c2store c2st c2c "A" "local-idx" "" [] ∧
    hasEdgeB (addAppropriatePackage c2store3 c2opts c2st c2res3 c2c "prov" "local-idx").1.graph
      (packageHash c2c) (packageHash c2c)
      = hasEdgeB c2st.graph (packageHash c2c) (packageHash c2c) :=
  ⟨skip_candidate_condition.1 c2store c2c "A" "local-idx" "" c2st c2r0 [] rfl rfl,
   skip_candidate_condition.2.1 c2store3 c2opts c2st c2res3 c2c "prov" "local-idx"
     (packageHash c2c)⟩

/-! ### Claim C10 -/

/--
C10: when `resolveCycle` fails after removing the culprit edge (here: the
re-resolution reports another pending cycle), the graph is left in the
partially rotated state — the removed culprit edge `B → A` is not
restored, the committed replacement edge `A → B` remains, and the
returned state differs from the pre-repair state.
-/
theorem resolveCycle_partial_state :
    (resolveCycle store5 opts5 st5 cyc5 "d" res10 "local").2
      = some (.stillCycle "B:1@r" "d") ∧
    (resolveCycle store5 opts5 st5 cyc5 "d" res10 "local").1 ≠ st5 ∧
    hasEdgeB (resolveCycle store5 opts5 st5 cyc5 "d" res10 "local").1.graph
      "A:1@r" "B:1@r" = true ∧
    hasEdgeB (resolveCycle store5 opts5 st5 cyc5 "d" res10 "local").1.graph
      "B:1@r" "A:1@r" = false :=
  ⟨rfl, by decide, rfl, rfl⟩

/-! ### Witnesses -/

theorem newGraphM_acyclic_witness :
    Acyclic (okOr (NewGraphM ctx1) initialBuildState.st).graph.edges :=
  @newGraphM_acyclic ctx1 _ rfl

theorem filter_correct_witness :
    (("A:1@r", pA3) ∈ sub3w.graph.vertices ↔
      ("A:1@r", pA3) ∈ st3w.graph.vertices ∧ f3w pA3 = true) ∧
    ((∃ e ∈ sub3w.graph.edges, e.src = "A:1@r" ∧ e.tgt = "B:1@s") ↔
      ((∃ e ∈ st3w.graph.edges, e.src = "A:1@r" ∧ e.tgt = "B:1@s") ∧
       (∃ p, ("A:1@r", p) ∈ st3w.graph.vertices ∧ f3w p = true) ∧
       (∃ q, ("B:1@s", q) ∈ st3w.graph.vertices ∧ f3w q = true))) := by
  have h := filter_correct st3w f3w sub3w (by decide) (by decide) rfl
  exact ⟨h.1 ("A:1@r", pA3), h.2 "A:1@r" "B:1@s"⟩

theorem sorted_topological_witness :
    SortedM w4bad = .error .topoCycle ∧
    ReverseSortedM w4bad = .error .topoCycle := by
  refine (sorted_topological w4bad ⟨by decide, by decide⟩).2 ?_
  intro hacy
  exact hacy "A" ⟨[⟨"A", "B", none⟩, ⟨"B", "A", none⟩], by decide,
    IsWalk.cons ⟨"A", "B", none⟩ (by decide)
      (IsWalk.cons ⟨"B", "A", none⟩ (by decide) (IsWalk.nil "A"))⟩

theorem resolveCycle_single_rotation_witness :
    resolveCycle store5 opts5 st5 cyc5 "d" res5 "local" = (st35, none) ∧
    (⟨"A:1@r", "B:1@r", some "d"⟩ : Edge) ∈ g25.edges := by
  have h := @resolveCycle_single_rotation store5 opts5 st5 cyc5 "d" res5 "local"
    ["B:1@r", "A:1@r"] ⟨"B:1@r", "A:1@r", some "x"⟩ "x" g15 g25 pkgB5
    rfl (by decide) rfl rfl rfl rfl rfl
  exact ⟨h.2.2.2 st35 rfl, h.2.1⟩

theorem resolveCycle_missing_attr_witness :
    resolveCycle store5 opts5 st6 cyc5 "d" res5 "local" =
      (st6, some (.noAttributes "B:1@r" "A:1@r")) :=
  @resolveCycle_missing_attr store5 opts5 st6 cyc5 "d" res5 "local"
    ["B:1@r", "A:1@r"] ⟨"B:1@r", "A:1@r", none⟩
    rfl (by decide) rfl rfl

theorem newGraph_error_accumulation_witness :
    NewGraphM ctx7 = .error (.joined bs7.errs) ∧
    bs7.errs = [.emptyDepName "A", .emptyDepName "B"] :=
  ⟨((newGraph_error_accumulation ctx7).2.2.2.1 bs7 rfl).2 (by decide), rfl⟩

theorem addVertex_idempotent_witness :
    addVertexD c8st1 c8p = .error .vertexAlreadyExists ∧
    addVertexTol c8st1 c8p = (c8st1, none) :=
  addVertex_idempotent c8st0 c8st1 c8p rfl

theorem getKeyMaterial_spec_witness :
    getKeyMaterial env9 "/k" = .ok none ∧
    getKeyMaterial env9 "/other" = .error (.keyReadFail "/other" "boom") ∧
    getKeyMaterial env9 "ftp://x" = .error (.schemeNotSupported "ftp") :=
  ⟨(getKeyMaterial_spec env9 "/k").1 rfl rfl,
   (getKeyMaterial_spec env9 "/other").2.1 "boom" rfl rfl,
   rfl⟩

end Dag
